import Mathlib

/-!
Bloom filter: local and remote engines.

A shallow embedding of `local/bloom_service.go`, `redis/bloom_service.go`,
`redis/redis_client.go` and `redis/murmur_hash.go`.

* Go `int32` values are `Int`s; every conversion or operation that can leave the
  32-bit range is wrapped with `toInt32`.
* Go `int` (the loop counter and the bitmap words) is taken to be 64 bits wide, so
  the counter never wraps and `1 << offset` with `0 <= offset <= 31` is `2 ^ offset`.
* A run-time panic of the Go program is a `Fault`; operations that can panic return
  `Except Fault _`.  After a fault the (partially updated) state is not observed.
* The 32-bit hash primitive (`murmur3.New32` / `Write` / `Sum32`) is a third-party
  function; it is the field `sum32` of `Encryptor`.
* The remote engine passes the state behind the connection pool explicitly.  The pool
  and its connections are the fields of `Pool`, `gocast.ToInt` is an argument of the
  remote `Set` and `Exist`; the `context.Context` argument is left out.
* `Store`, `storeDo` and `storeClient` describe the key-value store: a map from key to
  the set of offsets whose bit is 1, on which the two Lua scripts run as written.
-/

namespace BloomFilter

/-- Run-time panics of the Go code, and exhaustion of the iteration budget of a
modelled loop. -/
inductive Fault where
  | divideByZero
  | indexOutOfRange
  | makeSliceLen
  | makeSliceCap
  | outOfFuel
  deriving DecidableEq, Repr

/-- Conversion to `int32`: two's complement wrap-around into `[-2^31, 2^31)`. -/
def toInt32 (x : Int) : Int :=
  (x + 2147483648) % 4294967296 - 2147483648

/-- The values an `int32` can hold. -/
def isInt32 (x : Int) : Prop :=
  -2147483648 ≤ x ∧ x ≤ 2147483647

instance (x : Int) : Decidable (isInt32 x) := by
  unfold isInt32
  infer_instance

/-- Go constant `math.MaxInt32`. -/
def MaxInt32 : Nat := 2147483647

/-- `Encryptor` of `murmur_hash.go`.  The Go struct is empty; `sum32 s` stands for
the result of `murmur3.New32()`, `Write([]byte(s))`, `Sum32()`. -/
structure Encryptor where
  sum32 : String → Nat

/-- `Encryptor.Encrypt`: `int32(hash.Sum32() % math.MaxInt32)`; `Sum32` is a `uint32`. -/
def Encryptor.Encrypt (e : Encryptor) (origin : String) : Int :=
  toInt32 (((e.sum32 origin % 4294967296) % MaxInt32 : Nat) : Int)

/-- `gocast.ToString` on an `int32`: the decimal representation. -/
def ToString (x : Int) : String :=
  toString x

namespace Local

/-- `BloomService` of `local/bloom_service.go`. -/
structure BloomService where
  m : Int
  k : Int
  n : Int
  bitmap : List Int
  encryptor : Encryptor

/-- `NewBloomService`: `make([]int, m/32+1)` panics when the length is negative. -/
def NewBloomService (m k : Int) (encryptor : Encryptor) : Except Fault BloomService :=
  let len := toInt32 (Int.tdiv m 32 + 1)
  if len < 0 then .error .makeSliceLen
  else .ok { m := m, k := k, n := 0, bitmap := List.replicate len.toNat 0, encryptor := encryptor }

/-- The `for` loop of `getKEncrypted`; `i` is the loop counter, `origin` the next
hash input and `encrypts` the slice built so far. -/
def BloomService.getKEncryptedLoop (l : BloomService) :
    Nat → Int → String → List Int → Except Fault (List Int)
  | 0, _, _, _ => .error .outOfFuel
  | fuel + 1, i, origin, encrypts =>
    if toInt32 i < l.k then
      let encrypted := l.encryptor.Encrypt origin
      if l.m = 0 then .error .divideByZero
      else
        let encrypts := encrypts ++ [Int.tmod encrypted l.m]
        if toInt32 i = toInt32 (l.k - 1) then .ok encrypts
        else BloomService.getKEncryptedLoop l fuel (i + 1) (ToString encrypted) encrypts
    else .ok encrypts

/-- `BloomService.getKEncrypted`: `make([]int32, 0, l.k)` panics on a negative
capacity; the loop needs at most `k + 1` evaluations of its condition. -/
def BloomService.getKEncrypted (l : BloomService) (val : String) : Except Fault (List Int) :=
  if l.k < 0 then .error .makeSliceCap
  else l.getKEncryptedLoop (l.k.toNat + 1) 0 val []

/-- The body of the `range` loop of `Set`, over the offsets still to be handled. -/
def setBits : List Int → List Int → Except Fault (List Int)
  | bitmap, [] => .ok bitmap
  | bitmap, offset :: rest =>
    let index := offset >>> (5 : Nat)
    let bitOffset := Int.land offset 31
    if index < 0 ∨ (bitmap.length : Int) ≤ index then .error .indexOutOfRange
    else
      setBits (bitmap.set index.toNat
        (Int.lor (bitmap.getD index.toNat 0) ((1 : Int) <<< bitOffset))) rest

/-- `BloomService.Set`. -/
def BloomService.Set (l : BloomService) (val : String) : Except Fault BloomService :=
  let n := toInt32 (l.n + 1)
  match l.getKEncrypted val with
  | .error e => .error e
  | .ok offsets =>
    match setBits l.bitmap offsets with
    | .error e => .error e
    | .ok bitmap => .ok { l with n := n, bitmap := bitmap }

/-- The body of the `range` loop of `Exist`, over the offsets still to be tested. -/
def existBits (bitmap : List Int) : List Int → Except Fault Bool
  | [] => .ok true
  | idx :: rest =>
    let index := idx >>> (5 : Nat)
    let offset := Int.land idx 31
    if index < 0 ∨ (bitmap.length : Int) ≤ index then .error .indexOutOfRange
    else if Int.land (bitmap.getD index.toNat 0) ((1 : Int) <<< offset) = 0 then .ok false
    else existBits bitmap rest

/-- `BloomService.Exist`: the answer together with the state after the call. -/
def BloomService.Exist (l : BloomService) (val : String) : Except Fault (Bool × BloomService) :=
  match l.getKEncrypted val with
  | .error e => .error e
  | .ok offsets =>
    match existBits l.bitmap offsets with
    | .error e => .error e
    | .ok found => .ok (found, l)

/-- A sequence of `Set` calls, one per element of `vals`, in order. -/
def BloomService.setAll (l : BloomService) : List String → Except Fault BloomService
  | [] => .ok l
  | v :: vs =>
    match l.Set v with
    | .error e => .error e
    | .ok l1 => BloomService.setAll l1 vs

/-- Logical bit `j` of a bitmap: bit `j mod 32` of word `j div 32` (false past the end). -/
def bitIsSet (bitmap : List Int) (j : Nat) : Bool :=
  match bitmap.get? (j / 32) with
  | some w => Int.testBit w (j % 32)
  | none => false

/-- The filter states of the local engine: `m`, `k` and `n` are `int32` values,
`m > 0`, `k > 0`, and the bitmap has the `m/32 + 1` words allocated by
`NewBloomService`. -/
def BloomService.WellFormed (l : BloomService) : Prop :=
  isInt32 l.m ∧ isInt32 l.k ∧ isInt32 l.n ∧ 0 < l.m ∧ 0 < l.k ∧
    (l.bitmap.length : Int) = Int.tdiv l.m 32 + 1

instance (l : BloomService) : Decidable l.WellFormed := by
  unfold BloomService.WellFormed
  infer_instance

end Local

namespace Redis

/-- `BloomService` of `redis/bloom_service.go`; the type of the redis client is a
parameter. -/
structure BloomService (Client : Type) where
  m : Int
  k : Int
  encryptor : Encryptor
  client : Client

/-- `NewBloomService` of the remote engine. -/
def NewBloomService {Client : Type} (m k : Int) (client : Client) (encryptor : Encryptor) :
    BloomService Client :=
  { m := m, k := k, client := client, encryptor := encryptor }

/-- The `for` loop of the remote `getKEncrypted`. -/
def BloomService.getKEncryptedLoop {Client : Type} (b : BloomService Client) :
    Nat → Int → String → List Int → Except Fault (List Int)
  | 0, _, _, _ => .error .outOfFuel
  | fuel + 1, i, origin, encrypts =>
    if toInt32 i < b.k then
      let encrypted := b.encryptor.Encrypt origin
      let encrypts := encrypts ++ [encrypted]
      if toInt32 i = toInt32 (b.k - 1) then .ok encrypts
      else BloomService.getKEncryptedLoop b fuel (i + 1) (ToString encrypted) encrypts
    else .ok encrypts

/-- The remote `BloomService.getKEncrypted`. -/
def BloomService.getKEncrypted {Client : Type} (b : BloomService Client) (val : String) :
    Except Fault (List Int) :=
  if b.k < 0 then .error .makeSliceCap
  else b.getKEncryptedLoop (b.k.toNat + 1) 0 val []

/-- Go constant `LuaBloomBatchSetBits`: the script that sets `k` bits. -/
def LuaBloomBatchSetBits : String :=
  "\n  local bloomKey = KEYS[1]\n  local bitsCnt = ARGV[1]\n\n  for i=1,bitsCnt,1 do\n    local offset = ARGV[1+i]\n    redis.call(\x27setbit\x27,bloomKey,offset,1)\n  end\n  return 1\n"

/-- Go constant `LuaBloomBatchGetBits`: the script that tests `k` bits. -/
def LuaBloomBatchGetBits : String :=
  "\n  local bloomKey = KEYS[1]\n  local bitsCnt = ARGV[1]\n  for i=1,bitsCnt,1 do\n    local offset = ARGV[1+i]\n    local reply = redis.call(\x27getbit\x27,bloomKey,offset)\n    if (not reply) then\n        error(\x27FAIL\x27)\n        return 0\n    end\n    if (reply == 0) then\n        return 0\n    end\n  end\n  return 1\n"

/-- A Go `interface{}` value of the remote engine: a `string`, an `int`, an `int32`,
or a reply decoded by the connection (`R` is the type of those replies). -/
inductive Value (R : Type) where
  | string (s : String)
  | int (v : Int)
  | int32 (v : Int)
  | reply (r : R)

/-- The `redis.Pool` behind `Client`, with its connections.  `σ` is the state of
everything behind the pool, `E` the type of the errors it reports.  `GetContext`
yields an error or a connection, `Do` runs one command on the connection, `Close`
hands the connection back. -/
structure Pool (σ R E : Type) where
  GetContext : σ → Option E × σ
  Do : σ → String → List (Value R) → (R × Option E) × σ
  Close : σ → σ

/-- `Client` of `redis_client.go`. -/
structure Client (σ R E : Type) where
  pool : Pool σ R E

/-- `Client.Eval`: one connection is taken from the pool, the script is sent with
`EVAL`, and the connection is closed on the way out. -/
def Client.Eval {σ R E : Type} (r : Client σ R E) (s : σ) (src : String) (keyCount : Int)
    (keysAndArgs : List (Value R)) : (Value R × Option E) × σ :=
  let args := Value.string src :: Value.int keyCount :: keysAndArgs
  match r.pool.GetContext s with
  | (some err, s1) => ((Value.int (-1), some err), s1)
  | (none, s1) =>
    match r.pool.Do s1 "EVAL" args with
    | ((rawResp, err), s2) => ((Value.reply rawResp, err), r.pool.Close s2)

/-- A Go `error` returned by the remote engine: an error handed up from `Eval`, or
one made by `fmt.Errorf`. -/
inductive Error (E : Type) where
  | transport (err : E)
  | errorf (text : String)

/-- The remote `BloomService.Set`; `ToInt` is `gocast.ToInt`.  The result is the
returned `error` (`none` for `nil`) and the state behind the pool after the call. -/
def BloomService.Set {σ R E : Type} (b : BloomService (Client σ R E)) (ToInt : Value R → Int)
    (s : σ) (key val : String) : Except Fault (Option (Error E) × σ) :=
  if toInt32 (b.k + 2) < 0 then .error .makeSliceCap
  else
    match b.getKEncrypted val with
    | .error f => .error f
    | .ok encrypts =>
      let keyAndArgs := [Value.string key, Value.int32 b.k] ++ encrypts.map Value.int32
      match b.client.Eval s LuaBloomBatchSetBits 1 keyAndArgs with
      | ((_, some err), s1) => .ok (some (Error.transport err), s1)
      | ((rawResp, none), s1) =>
        let resp := ToInt rawResp
        if resp ≠ 1 then .ok (some (Error.errorf ("resp: " ++ toString resp)), s1)
        else .ok (none, s1)

/-- The remote `BloomService.Exist`; the result is the returned pair and the state
behind the pool after the call. -/
def BloomService.Exist {σ R E : Type} (b : BloomService (Client σ R E)) (ToInt : Value R → Int)
    (s : σ) (key val : String) : Except Fault ((Bool × Option (Error E)) × σ) :=
  if toInt32 (b.k + 2) < 0 then .error .makeSliceCap
  else
    match b.getKEncrypted val with
    | .error f => .error f
    | .ok encrypts =>
      let keyAndArgs := [Value.string key, Value.int32 b.k] ++ encrypts.map Value.int32
      match b.client.Eval s LuaBloomBatchGetBits 1 keyAndArgs with
      | ((_, some err), s1) => .ok ((false, some (Error.transport err)), s1)
      | ((rawResp, none), s1) =>
        let resp := ToInt rawResp
        if resp = 1 then .ok ((true, none), s1)
        else .ok ((false, none), s1)

/-- A sequence of remote `Set` calls, one per `(key, val)` pair, each of which
returned `nil`; `none` as soon as one of them panics or returns an error. -/
def BloomService.setAll {σ R E : Type} (b : BloomService (Client σ R E)) (ToInt : Value R → Int) :
    σ → List (String × String) → Option σ
  | s, [] => some s
  | s, kv :: rest =>
    match b.Set ToInt s kv.1 kv.2 with
    | .ok (none, s1) => BloomService.setAll b ToInt s1 rest
    | _ => none

/-! The store behind the pool: a map from key to the set of offsets whose bit is 1,
changed only by the two scripts. -/

/-- The store: `s key offset` tells whether bit `offset` of `key` is 1. -/
abbrev Store := String → Int → Bool

/-- A store with no bit set. -/
def emptyStore : Store :=
  fun _ _ => false

/-- Replies of the store: `nil`, or an integer (an `int64` for the Go code). -/
inductive StoreReply where
  | null
  | integer (v : Int)

/-- Redis `SETBIT key offset 1`; the offset has to lie in `[0, 2^32)`. -/
def setbit (s : Store) (key : String) (offset : Int) : Except String Store :=
  if 0 ≤ offset ∧ offset < 4294967296 then
    .ok (fun k o => if k = key ∧ o = offset then true else s k o)
  else .error "ERR bit offset is not an integer or out of range"

/-- Redis `GETBIT key offset`: 1 or 0. -/
def getbit (s : Store) (key : String) (offset : Int) : Except String Int :=
  if 0 ≤ offset ∧ offset < 4294967296 then .ok (if s key offset then 1 else 0)
  else .error "ERR bit offset is not an integer or out of range"

/-- A script argument read as a number. -/
def argNumber {R : Type} : Option (Value R) → Option Int
  | some (Value.int v) => some v
  | some (Value.int32 v) => some v
  | _ => none

/-- A script argument read as a key. -/
def argKey {R : Type} : Option (Value R) → Option String
  | some (Value.string k) => some k
  | some (Value.int v) => some (toString v)
  | some (Value.int32 v) => some (toString v)
  | _ => none

/-- The `for` loop of `LuaBloomBatchSetBits` with `n` rounds left, at loop index `i`;
Lua `ARGV[1+i]` is element `i` of the list.  Bits written before a failing round
stay written. -/
def batchSetBitsLoop {R : Type} (bloomKey : String) (ARGV : List (Value R)) :
    Nat → Nat → Store → Option String × Store
  | 0, _, s => (none, s)
  | n + 1, i, s =>
    match argNumber (ARGV.get? i) with
    | none => (some "ERR Lua redis() command arguments must be strings or integers", s)
    | some offset =>
      match setbit s bloomKey offset with
      | .error e => (some e, s)
      | .ok s1 => batchSetBitsLoop bloomKey ARGV n (i + 1) s1

/-- The `for` loop of `LuaBloomBatchGetBits` with `n` rounds left, at loop index `i`:
the script's return value.  `GETBIT` never answers `nil`, so the `not reply` branch
is not taken. -/
def batchGetBitsLoop {R : Type} (s : Store) (bloomKey : String) (ARGV : List (Value R)) :
    Nat → Nat → Except String Int
  | 0, _ => .ok 1
  | n + 1, i =>
    match argNumber (ARGV.get? i) with
    | none => .error "ERR Lua redis() command arguments must be strings or integers"
    | some offset =>
      match getbit s bloomKey offset with
      | .error e => .error e
      | .ok reply =>
        if reply = 0 then .ok 0
        else batchGetBitsLoop s bloomKey ARGV n (i + 1)

/-- What the store does with one command: `EVAL` of one of the two scripts, with
`KEYS` the first `keyCount` arguments and `ARGV` the others. -/
def storeDo (s : Store) (cmd : String) (args : List (Value StoreReply)) :
    (StoreReply × Option String) × Store :=
  if cmd = "EVAL" then
    match args with
    | Value.string src :: Value.int keyCount :: rest =>
      let KEYS := rest.take keyCount.toNat
      let ARGV := rest.drop keyCount.toNat
      match argKey (KEYS.get? 0), argNumber (ARGV.get? 0) with
      | some bloomKey, some bitsCnt =>
        if src = LuaBloomBatchSetBits then
          match batchSetBitsLoop bloomKey ARGV bitsCnt.toNat 1 s with
          | (some e, s1) => ((StoreReply.null, some e), s1)
          | (none, s1) => ((StoreReply.integer 1, none), s1)
        else if src = LuaBloomBatchGetBits then
          match batchGetBitsLoop s bloomKey ARGV bitsCnt.toNat 1 with
          | .error e => ((StoreReply.null, some e), s)
          | .ok v => ((StoreReply.integer v, none), s)
        else ((StoreReply.null, some "ERR unknown script"), s)
      | _, _ => ((StoreReply.null, some "ERR wrong arguments for the script"), s)
    | _ => ((StoreReply.null, some "ERR wrong number of arguments"), s)
  else ((StoreReply.null, some "ERR unknown command"), s)

/-- A client whose pool always has a connection to the store. -/
def storeClient : Client Store StoreReply String :=
  { pool := { GetContext := fun s => (none, s), Do := storeDo, Close := fun s => s } }

/-- For concrete runs, `gocast.ToInt` on the values of the store: an integer is
converted to itself, anything else to 0. -/
def storeToInt : Value StoreReply → Int
  | Value.reply (StoreReply.integer v) => v
  | Value.int v => v
  | Value.int32 v => v
  | _ => 0

end Redis

/-- The hash chain of `n` rounds started at `origin`: each round hashes the decimal
string of the previous round's hash. -/
def hashChain (e : Encryptor) : Nat → String → List Int
  | 0, _ => []
  | n + 1, origin => e.Encrypt origin :: hashChain e n (ToString (e.Encrypt origin))

/-- The reference hash of round `i`, in the words of the chain's description:
`h_0 = Encrypt(val)` and `h_(i+1) = Encrypt(decimal string of h_i)`. -/
def referenceHash (e : Encryptor) (val : String) : Nat → Int
  | 0 => e.Encrypt val
  | i + 1 => e.Encrypt (ToString (referenceHash e val i))

/-- The reference chain `[h_0, ..., h_(k-1)]`. -/
def referenceChain (e : Encryptor) (val : String) (k : Nat) : List Int :=
  (List.range k).map (referenceHash e val)

/-- An encryptor for concrete runs: its hash primitive returns 613153351 (the
murmur3 sum of "hello", seed 0) on every input. -/
def helloEncryptor : Encryptor :=
  ⟨fun _ => 613153351⟩

/-! ## Machine integers and the encryptor -/

theorem toInt32_of_isInt32 {x : Int} (h : isInt32 x) : toInt32 x = x := by
  unfold isInt32 at h
  unfold toInt32
  omega

theorem toInt32_isInt32 (x : Int) : isInt32 (toInt32 x) := by
  unfold isInt32 toInt32
  omega

theorem Encrypt_range (e : Encryptor) (s : String) :
    0 ≤ e.Encrypt s ∧ e.Encrypt s ≤ 2147483646 := by
  unfold Encryptor.Encrypt toInt32 MaxInt32
  omega

theorem hashChain_length (e : Encryptor) (n : Nat) (s : String) :
    (hashChain e n s).length = n := by
  induction n generalizing s with
  | zero => rfl
  | succ n ih => simp [hashChain, ih]

theorem hashChain_range (e : Encryptor) (n : Nat) (s : String) :
    ∀ x ∈ hashChain e n s, 0 ≤ x ∧ x ≤ 2147483646 := by
  induction n generalizing s with
  | zero => intro x hx; simp [hashChain] at hx
  | succ n ih =>
    intro x hx
    simp only [hashChain, List.mem_cons] at hx
    rcases hx with hx | hx
    · rw [hx]
      exact Encrypt_range e s
    · exact ih _ x hx

/-! ## The hash-chain loops -/

theorem Local.getKEncryptedLoop_eq (l : Local.BloomService) (hk : isInt32 l.k) (hm : l.m ≠ 0)
    (fuel : Nat) (i : Int) (origin : String) (acc : List Int)
    (hi0 : 0 ≤ i) (hik : i < l.k) (hfuel : (l.k - i).toNat ≤ fuel) :
    l.getKEncryptedLoop fuel i origin acc =
      .ok (acc ++ (hashChain l.encryptor (l.k - i).toNat origin).map (fun h => Int.tmod h l.m)) := by
  induction fuel generalizing i origin acc with
  | zero => omega
  | succ fuel ih =>
    have hi32 : toInt32 i = i := toInt32_of_isInt32 (by unfold isInt32 at *; omega)
    have hk32 : toInt32 (l.k - 1) = l.k - 1 := toInt32_of_isInt32 (by unfold isInt32 at *; omega)
    unfold Local.BloomService.getKEncryptedLoop
    rw [hi32, hk32]
    simp only [hik, if_true, hm, if_false]
    by_cases hlast : i = l.k - 1
    · have h1 : (l.k - i).toNat = 1 := by omega
      simp [hlast, h1, hashChain]
    · have hstep : (l.k - i).toNat = (l.k - (i + 1)).toNat + 1 := by omega
      rw [if_neg hlast, ih (i + 1) _ _ (by omega) (by omega) (by omega), hstep]
      simp [hashChain]

theorem Local.getKEncrypted_eq (l : Local.BloomService) (hk : isInt32 l.k) (hk0 : 0 < l.k)
    (hm : l.m ≠ 0) (val : String) :
    l.getKEncrypted val =
      .ok ((hashChain l.encryptor l.k.toNat val).map (fun h => Int.tmod h l.m)) := by
  unfold Local.BloomService.getKEncrypted
  rw [if_neg (by omega), Local.getKEncryptedLoop_eq l hk hm _ 0 val [] (by omega) hk0 (by omega)]
  simp

theorem Redis.rawLoop_eq {Client : Type} (b : Redis.BloomService Client)
    (hk : isInt32 b.k) (fuel : Nat) (i : Int) (origin : String) (acc : List Int)
    (hi0 : 0 ≤ i) (hik : i < b.k) (hfuel : (b.k - i).toNat ≤ fuel) :
    b.getKEncryptedLoop fuel i origin acc =
      .ok (acc ++ hashChain b.encryptor (b.k - i).toNat origin) := by
  induction fuel generalizing i origin acc with
  | zero => omega
  | succ fuel ih =>
    have hi32 : toInt32 i = i := toInt32_of_isInt32 (by unfold isInt32 at *; omega)
    have hk32 : toInt32 (b.k - 1) = b.k - 1 := toInt32_of_isInt32 (by unfold isInt32 at *; omega)
    unfold Redis.BloomService.getKEncryptedLoop
    rw [hi32, hk32]
    simp only [hik, if_true]
    by_cases hlast : i = b.k - 1
    · have h1 : (b.k - i).toNat = 1 := by omega
      simp [hlast, h1, hashChain]
    · have hstep : (b.k - i).toNat = (b.k - (i + 1)).toNat + 1 := by omega
      rw [if_neg hlast, ih (i + 1) _ _ (by omega) (by omega) (by omega), hstep]
      simp [hashChain]

theorem Redis.rawOffsets_eq {Client : Type} (b : Redis.BloomService Client)
    (hk : isInt32 b.k) (hk0 : 0 < b.k) (val : String) :
    b.getKEncrypted val = .ok (hashChain b.encryptor b.k.toNat val) := by
  unfold Redis.BloomService.getKEncrypted
  rw [if_neg (by omega), Redis.rawLoop_eq b hk _ 0 val [] (by omega) hk0 (by omega)]
  simp

theorem Local.getKEncrypted_ne_outOfFuel (l : Local.BloomService) (hk32 : isInt32 l.k)
    (val : String) : l.getKEncrypted val ≠ .error Fault.outOfFuel := by
  by_cases hk : 0 < l.k
  · by_cases hm : l.m = 0
    · unfold Local.BloomService.getKEncrypted Local.BloomService.getKEncryptedLoop
      have h0 : toInt32 0 = 0 := by decide
      rw [if_neg (by omega), h0]
      simp [hk, hm]
    · rw [Local.getKEncrypted_eq l hk32 hk hm val]
      simp
  · unfold Local.BloomService.getKEncrypted
    by_cases hneg : l.k < 0
    · simp [hneg]
    · have hk0 : l.k = 0 := by omega
      have h0 : toInt32 0 = 0 := by decide
      unfold Local.BloomService.getKEncryptedLoop
      simp [hk0, h0]

theorem Redis.rawOffsets_ne_outOfFuel {Client : Type} (b : Redis.BloomService Client)
    (hk32 : isInt32 b.k) (val : String) : b.getKEncrypted val ≠ .error Fault.outOfFuel := by
  by_cases hk : 0 < b.k
  · rw [Redis.rawOffsets_eq b hk32 hk val]
    simp
  · unfold Redis.BloomService.getKEncrypted
    by_cases hneg : b.k < 0
    · simp [hneg]
    · have hk0 : b.k = 0 := by omega
      have h0 : toInt32 0 = 0 := by decide
      unfold Redis.BloomService.getKEncryptedLoop
      simp [hk0, h0]

/-! ## Bits of a word -/

theorem int_eq_of_testBit_eq (a b : Int) (h : ∀ i, Int.testBit a i = Int.testBit b i) : a = b := by
  have hlt : ∀ x : Nat, x < 2 ^ x := fun x => Nat.lt_two_pow x
  cases a with
  | ofNat m =>
    cases b with
    | ofNat n =>
      congr 1
      exact Nat.eq_of_testBit_eq (fun i => by simpa [Int.testBit] using h i)
    | negSucc n =>
      exfalso
      have h1 := h (m + n)
      simp only [Int.testBit] at h1
      rw [Nat.testBit_lt_two_pow (lt_of_lt_of_le (hlt m) (Nat.pow_le_pow_right (by decide) (by omega))),
        Nat.testBit_lt_two_pow (lt_of_lt_of_le (hlt n) (Nat.pow_le_pow_right (by decide) (by omega)))] at h1
      simp at h1
  | negSucc m =>
    cases b with
    | ofNat n =>
      exfalso
      have h1 := h (m + n)
      simp only [Int.testBit] at h1
      rw [Nat.testBit_lt_two_pow (lt_of_lt_of_le (hlt m) (Nat.pow_le_pow_right (by decide) (by omega))),
        Nat.testBit_lt_two_pow (lt_of_lt_of_le (hlt n) (Nat.pow_le_pow_right (by decide) (by omega)))] at h1
      simp at h1
    | negSucc n =>
      congr 1
      exact Nat.eq_of_testBit_eq (fun i => by simpa [Int.testBit] using h i)

theorem one_shiftLeft_land31 (o : Int) (ho : 0 ≤ o) :
    (1 : Int) <<< (Int.land o 31) = ((2 ^ (o.toNat % 32) : Nat) : Int) := by
  obtain ⟨n, rfl⟩ := Int.eq_ofNat_of_zero_le ho
  have h : Int.land (n : Int) 31 = ((n % 32 : Nat) : Int) := by
    show ((Nat.land n 31 : Nat) : Int) = _
    congr 1
    exact Nat.and_pow_two_sub_one_eq_mod n 5
  rw [h, Int.one_shiftLeft]
  simp

theorem shiftRight5 (o : Int) (ho : 0 ≤ o) :
    o >>> (5 : Nat) = ((o.toNat / 32 : Nat) : Int) := by
  obtain ⟨n, rfl⟩ := Int.eq_ofNat_of_zero_le ho
  rw [Int.shiftRight_eq_div_pow]
  simp

theorem testBit_lor_two_pow (w : Int) (p q : Nat) :
    Int.testBit (Int.lor w ((2 ^ p : Nat) : Int)) q = (Int.testBit w q || decide (p = q)) := by
  rw [Int.testBit_lor]
  congr 1
  show Nat.testBit (2 ^ p) q = _
  exact Nat.testBit_two_pow

theorem land_two_pow_eq_zero (w : Int) (p : Nat) :
    Int.land w ((2 ^ p : Nat) : Int) = 0 ↔ Int.testBit w p = false := by
  constructor
  · intro h
    have h1 := Int.testBit_land w ((2 ^ p : Nat) : Int) p
    rw [h] at h1
    have h2 : Int.testBit ((2 ^ p : Nat) : Int) p = true := by
      show Nat.testBit (2 ^ p) p = true
      exact Nat.testBit_two_pow_self
    rw [h2] at h1
    simpa [Int.testBit] using h1.symm
  · intro h
    apply int_eq_of_testBit_eq
    intro i
    rw [Int.testBit_land]
    have h2 : Int.testBit ((2 ^ p : Nat) : Int) i = decide (p = i) := by
      show Nat.testBit (2 ^ p) i = _
      exact Nat.testBit_two_pow
    rw [h2]
    have h0 : Int.testBit 0 i = false := by
      show Nat.testBit 0 i = false
      simp
    rw [h0]
    by_cases hpi : p = i
    · subst hpi
      rw [h]
      rfl
    · simp [hpi]

/-! ## The bit loops of `Set` and `Exist` -/

theorem Local.getD_set_word (bitmap : List Int) (idx i : Nat) (w : Int) (h : idx < bitmap.length) :
    (bitmap.set idx w).getD i 0 = if idx = i then w else bitmap.getD i 0 := by
  simp only [List.getD_eq_getElem?_getD, List.getElem?_set]
  by_cases hi : idx = i
  · subst hi
    simp [h]
  · simp [hi]

theorem Local.setBits_spec (offs : List Int) : ∀ (bitmap : List Int),
    (∀ o ∈ offs, 0 ≤ o ∧ o < 32 * (bitmap.length : Int)) →
    ∃ bm, Local.setBits bitmap offs = .ok bm ∧ bm.length = bitmap.length ∧
      ∀ i q, Int.testBit (bm.getD i 0) q = true ↔
        (Int.testBit (bitmap.getD i 0) q = true ∨ (q < 32 ∧ ((32 * i + q : Nat) : Int) ∈ offs)) := by
  induction offs with
  | nil =>
    intro bitmap _
    exact ⟨bitmap, rfl, rfl, fun i q => by simp⟩
  | cons o rest ih =>
    intro bitmap hb
    have ho := hb o (List.mem_cons_self _ _)
    have hidx : o.toNat / 32 < bitmap.length := by omega
    have hlen : (bitmap.set (o.toNat / 32)
        (Int.lor (bitmap.getD (o.toNat / 32) 0) ((2 ^ (o.toNat % 32) : Nat) : Int))).length
          = bitmap.length := by simp
    obtain ⟨bm, hbm, hbl, hbits⟩ := ih (bitmap.set (o.toNat / 32)
        (Int.lor (bitmap.getD (o.toNat / 32) 0) ((2 ^ (o.toNat % 32) : Nat) : Int)))
      (by
        intro x hx
        rw [hlen]
        exact hb x (List.mem_cons_of_mem _ hx))
    refine ⟨bm, ?_, by rw [hbl, hlen], ?_⟩
    · unfold Local.setBits
      simp only [shiftRight5 o ho.1, one_shiftLeft_land31 o ho.1, Int.toNat_ofNat]
      rw [if_neg (by omega)]
      exact hbm
    · intro i q
      rw [hbits i q, Local.getD_set_word _ _ _ _ hidx, List.mem_cons]
      by_cases hi : o.toNat / 32 = i
      · rw [if_pos hi, testBit_lor_two_pow, Bool.or_eq_true, decide_eq_true_eq, hi]
        constructor
        · rintro ((h | h) | h)
          · exact Or.inl h
          · exact Or.inr ⟨by omega, Or.inl (by omega)⟩
          · exact Or.inr ⟨h.1, Or.inr h.2⟩
        · rintro (h | ⟨h1, h2 | h2⟩)
          · exact Or.inl (Or.inl h)
          · exact Or.inl (Or.inr (by omega))
          · exact Or.inr ⟨h1, h2⟩
      · rw [if_neg hi]
        constructor
        · rintro (h | h)
          · exact Or.inl h
          · exact Or.inr ⟨h.1, Or.inr h.2⟩
        · rintro (h | ⟨h1, h2 | h2⟩)
          · exact Or.inl h
          · exfalso; omega
          · exact Or.inr ⟨h1, h2⟩

theorem Local.bitIsSet_eq (bitmap : List Int) (j : Nat) :
    Local.bitIsSet bitmap j = Int.testBit (bitmap.getD (j / 32) 0) (j % 32) := by
  unfold Local.bitIsSet
  rw [List.getD_eq_getElem?_getD, List.get?_eq_getElem?]
  cases bitmap[j / 32]? with
  | none =>
    show false = Nat.testBit 0 (j % 32)
    simp
  | some w => rfl

theorem Local.existBits_spec (bitmap : List Int) (offs : List Int)
    (hb : ∀ o ∈ offs, 0 ≤ o ∧ o < 32 * (bitmap.length : Int)) :
    Local.existBits bitmap offs = .ok (offs.all fun o => Local.bitIsSet bitmap o.toNat) := by
  induction offs with
  | nil => rfl
  | cons o rest ih =>
    have ho := hb o (List.mem_cons_self _ _)
    have hrest := ih (fun x hx => hb x (List.mem_cons_of_mem _ hx))
    unfold Local.existBits
    simp only [shiftRight5 o ho.1, one_shiftLeft_land31 o ho.1, Int.toNat_ofNat]
    rw [if_neg (by omega), List.all_cons, Local.bitIsSet_eq]
    by_cases hbit : Int.testBit (bitmap.getD (o.toNat / 32) 0) (o.toNat % 32) = true
    · rw [if_neg (by rw [land_two_pow_eq_zero, hbit]; decide), hrest, hbit]
      simp
    · have hf : Int.testBit (bitmap.getD (o.toNat / 32) 0) (o.toNat % 32) = false := by
        simpa using hbit
      rw [if_pos ((land_two_pow_eq_zero _ _).2 hf), hf]
      simp

/-! ## The local engine on well-formed states -/

theorem tdiv32 (m : Int) : Int.tdiv m 32 = if 0 ≤ m then m / 32 else -((-m) / 32) := by
  by_cases h : 0 ≤ m
  · rw [if_pos h, Int.tdiv_eq_ediv h (by decide)]
  · rw [if_neg h]
    have h1 : Int.tdiv (-(-m)) 32 = -(Int.tdiv (-m) 32) := Int.neg_tdiv (-m) 32
    rw [Int.neg_neg] at h1
    rw [h1, Int.tdiv_eq_ediv (by omega) (by decide)]

theorem Local.offsets_spec (l : Local.BloomService) (hk32 : isInt32 l.k)
    (hm : 0 < l.m) (hk : 0 < l.k) (val : String) :
    ∃ offs, l.getKEncrypted val = .ok offs ∧ (offs.length : Int) = l.k ∧
      ∀ o ∈ offs, 0 ≤ o ∧ o < l.m := by
  refine ⟨_, Local.getKEncrypted_eq l hk32 hk (by omega) val, ?_, ?_⟩
  · rw [List.length_map, hashChain_length]
    omega
  · intro o ho
    rw [List.mem_map] at ho
    obtain ⟨h, hh, rfl⟩ := ho
    exact ⟨Int.tmod_nonneg _ (hashChain_range _ _ _ h hh).1, Int.tmod_lt_of_pos _ hm⟩

theorem Local.wellFormed_bound (l : Local.BloomService) (hwf : l.WellFormed) (o : Int)
    (ho : 0 ≤ o ∧ o < l.m) : 0 ≤ o ∧ o < 32 * (l.bitmap.length : Int) := by
  obtain ⟨_, _, _, hm, _, hlen⟩ := hwf
  rw [tdiv32, if_pos (by omega)] at hlen
  omega

theorem Local.Set_spec (l : Local.BloomService) (hwf : l.WellFormed) (val : String) :
    ∃ offs bm, l.getKEncrypted val = .ok offs ∧ (∀ o ∈ offs, 0 ≤ o ∧ o < l.m) ∧
      l.Set val = .ok { l with n := toInt32 (l.n + 1), bitmap := bm } ∧
      bm.length = l.bitmap.length ∧
      ∀ i q, Int.testBit (bm.getD i 0) q = true ↔
        (Int.testBit (l.bitmap.getD i 0) q = true ∨
          (q < 32 ∧ ((32 * i + q : Nat) : Int) ∈ offs)) := by
  obtain ⟨offs, hoffs, _, hrange⟩ :=
    Local.offsets_spec l hwf.2.1 hwf.2.2.2.1 hwf.2.2.2.2.1 val
  obtain ⟨bm, hbm, hlen, hbits⟩ := Local.setBits_spec offs l.bitmap
    (fun o ho => Local.wellFormed_bound l hwf o (hrange o ho))
  refine ⟨offs, bm, hoffs, hrange, ?_, hlen, hbits⟩
  unfold Local.BloomService.Set
  simp only [hoffs, hbm]

theorem Local.Exist_spec (l : Local.BloomService) (hwf : l.WellFormed) (val : String) :
    ∃ offs, l.getKEncrypted val = .ok offs ∧ (∀ o ∈ offs, 0 ≤ o ∧ o < l.m) ∧
      l.Exist val = .ok (offs.all (fun o => Local.bitIsSet l.bitmap o.toNat), l) := by
  obtain ⟨offs, hoffs, _, hrange⟩ :=
    Local.offsets_spec l hwf.2.1 hwf.2.2.2.1 hwf.2.2.2.2.1 val
  refine ⟨offs, hoffs, hrange, ?_⟩
  unfold Local.BloomService.Exist
  simp only [hoffs, Local.existBits_spec l.bitmap offs
    (fun o ho => Local.wellFormed_bound l hwf o (hrange o ho))]

theorem Local.Set_wellFormed (l l1 : Local.BloomService) (hwf : l.WellFormed) (val : String)
    (h : l.Set val = .ok l1) :
    l1.WellFormed ∧ l1.m = l.m ∧ l1.k = l.k ∧ l1.encryptor = l.encryptor ∧
      l1.n = toInt32 (l.n + 1) ∧
      ∀ j, Local.bitIsSet l.bitmap j = true → Local.bitIsSet l1.bitmap j = true := by
  obtain ⟨offs, bm, _, _, hset, hlen, hbits⟩ := Local.Set_spec l hwf val
  rw [hset] at h
  injection h with h
  subst h
  refine ⟨?_, rfl, rfl, rfl, rfl, ?_⟩
  · obtain ⟨h1, h2, _, h3, h4, h5⟩ := hwf
    exact ⟨h1, h2, toInt32_isInt32 _, h3, h4,
      by show ((bm.length : Nat) : Int) = _; rw [hlen]; exact h5⟩
  · intro j hj
    rw [Local.bitIsSet_eq] at hj ⊢
    exact (hbits _ _).2 (Or.inl hj)

theorem Local.setAll_spec (vals : List String) : ∀ (l : Local.BloomService), l.WellFormed →
    ∃ l1, l.setAll vals = .ok l1 ∧ l1.WellFormed ∧ l1.m = l.m ∧ l1.k = l.k ∧
      l1.encryptor = l.encryptor ∧ l1.n = toInt32 (l.n + vals.length) ∧
      ∀ j, Local.bitIsSet l.bitmap j = true → Local.bitIsSet l1.bitmap j = true := by
  induction vals with
  | nil =>
    intro l hwf
    refine ⟨l, rfl, hwf, rfl, rfl, rfl, ?_, fun _ h => h⟩
    simp [toInt32_of_isInt32 hwf.2.2.1]
  | cons v vs ih =>
    intro l hwf
    obtain ⟨offs, bm, _, _, hset, _, _⟩ := Local.Set_spec l hwf v
    obtain ⟨hwf1, hm1, hk1, he1, hn1, hmono1⟩ := Local.Set_wellFormed l _ hwf v hset
    obtain ⟨l2, hall, hwf2, hm2, hk2, he2, hn2, hmono2⟩ := ih _ hwf1
    refine ⟨l2, ?_, hwf2, by rw [hm2, hm1], by rw [hk2, hk1], by rw [he2, he1], ?_,
      fun j hj => hmono2 j (hmono1 j hj)⟩
    · unfold Local.BloomService.setAll
      simp only [hset]
      exact hall
    · rw [hn2, hn1]
      simp only [List.length_cons]
      unfold toInt32
      push_cast
      omega

theorem Local.setAll_append (l la : Local.BloomService) (pre rest : List String)
    (h : l.setAll pre = .ok la) : l.setAll (pre ++ rest) = la.setAll rest := by
  induction pre generalizing l with
  | nil =>
    unfold Local.BloomService.setAll at h
    injection h with h
    rw [List.nil_append, h]
  | cons p ps ih =>
    rw [List.cons_append, Local.BloomService.setAll.eq_2 l p (ps ++ rest)]
    rw [Local.BloomService.setAll.eq_2 l p ps] at h
    cases hp : l.Set p with
    | error e =>
      rw [hp] at h
      cases h
    | ok lp =>
      rw [hp] at h
      exact ih lp h

theorem Local.NewBloomService_eq (m k : Int) (enc : Encryptor) (hm32 : isInt32 m) :
    Local.NewBloomService m k enc =
      if m ≤ -64 then .error .makeSliceLen
      else .ok { m := m, k := k, n := 0,
                 bitmap := List.replicate (Int.tdiv m 32 + 1).toNat 0, encryptor := enc } := by
  have h32 : toInt32 (Int.tdiv m 32 + 1) = Int.tdiv m 32 + 1 := by
    apply toInt32_of_isInt32
    unfold isInt32 at *
    rw [tdiv32]
    split <;> omega
  unfold Local.NewBloomService
  simp only [h32]
  by_cases h : m ≤ -64
  · rw [if_pos h, if_pos (by rw [tdiv32]; split <;> omega)]
  · rw [if_neg h, if_neg (by rw [tdiv32]; split <;> omega)]

theorem Local.NewBloomService_wellFormed (m k : Int) (enc : Encryptor) (hm32 : isInt32 m)
    (hk32 : isInt32 k) (hm : 0 < m) (hk : 0 < k) :
    ∃ l0, Local.NewBloomService m k enc = .ok l0 ∧ l0.WellFormed ∧ l0.m = m ∧ l0.k = k ∧
      l0.n = 0 ∧ l0.encryptor = enc := by
  refine ⟨_, by rw [Local.NewBloomService_eq m k enc hm32, if_neg (by omega)], ?_, rfl, rfl,
    rfl, rfl⟩
  have h0 : isInt32 0 := by decide
  refine ⟨hm32, hk32, h0, hm, hk, ?_⟩
  show ((List.replicate (Int.tdiv m 32 + 1).toNat (0 : Int)).length : Int) = Int.tdiv m 32 + 1
  rw [List.length_replicate, tdiv32, if_pos (by omega)]
  omega

theorem Local.getKEncrypted_congr (l l1 : Local.BloomService) (hwf : l.WellFormed)
    (hm : l1.m = l.m) (hk : l1.k = l.k) (he : l1.encryptor = l.encryptor) (val : String) :
    l1.getKEncrypted val = l.getKEncrypted val := by
  obtain ⟨_, hk32, _, hm0, hk0, _⟩ := hwf
  rw [Local.getKEncrypted_eq l hk32 hk0 (by omega) val,
    Local.getKEncrypted_eq l1 (by rw [hk]; exact hk32) (by omega) (by omega) val, hm, hk, he]

theorem Local.Set_sets_bits (l : Local.BloomService) (hwf : l.WellFormed) (val : String) :
    ∃ offs l1, l.getKEncrypted val = .ok offs ∧ l.Set val = .ok l1 ∧
      ∀ o ∈ offs, Local.bitIsSet l1.bitmap o.toNat = true := by
  obtain ⟨offs, bm, hoffs, hrange, hset, _, hbits⟩ := Local.Set_spec l hwf val
  refine ⟨offs, _, hoffs, hset, ?_⟩
  intro o ho
  rw [Local.bitIsSet_eq]
  refine (hbits _ _).2 (Or.inr ⟨Nat.mod_lt _ (by decide), ?_⟩)
  have h1 : ((32 * (o.toNat / 32) + o.toNat % 32 : Nat) : Int) = o := by
    have := (hrange o ho).1
    omega
  rw [h1]
  exact ho

theorem list_eq_of_getD (a b : List Int) (hlen : a.length = b.length)
    (h : ∀ i, a.getD i 0 = b.getD i 0) : a = b := by
  apply List.ext_getElem hlen
  intro i h1 h2
  have := h i
  rw [List.getD_eq_getElem _ _ h1, List.getD_eq_getElem _ _ h2] at this
  exact this

/-! ## The claims -/

/-- C1: no false negatives in the local engine.  On the filter returned by
`NewBloomService m k` with `m > 0` and `k > 0`, after any sequence `pre` of earlier
`Set` calls, then `Set v`, then `Set w` for every `w` of `ws` (any number of them, in
any order, possibly none on either side), every call completes and `Exist v`
returns true. -/
theorem Local.no_false_negatives (m k : Int) (enc : Encryptor) (hm32 : isInt32 m)
    (hk32 : isInt32 k) (hm : 0 < m) (hk : 0 < k) (pre : List String) (v : String)
    (ws : List String) :
    ∃ l0 l1, Local.NewBloomService m k enc = .ok l0 ∧
      l0.setAll (pre ++ v :: ws) = .ok l1 ∧ l1.Exist v = .ok (true, l1) := by
  obtain ⟨l0, hnew, hwf0, _, _, _, _⟩ := Local.NewBloomService_wellFormed m k enc hm32 hk32 hm hk
  obtain ⟨lp, hpre, hwfp, _, _, _, _, _⟩ := Local.setAll_spec pre l0 hwf0
  obtain ⟨offs, la, hoffs, hset, hbits⟩ := Local.Set_sets_bits lp hwfp v
  obtain ⟨hwfa, hma, hka, hea, _, _⟩ := Local.Set_wellFormed lp la hwfp v hset
  obtain ⟨l1, hall, hwf1, hm1, hk1, he1, _, hmono⟩ := Local.setAll_spec ws la hwfa
  refine ⟨l0, l1, hnew, ?_, ?_⟩
  · rw [Local.setAll_append l0 lp pre (v :: ws) hpre]
    unfold Local.BloomService.setAll
    simp only [hset]
    exact hall
  · obtain ⟨offs1, hoffs1, _, hex⟩ := Local.Exist_spec l1 hwf1 v
    rw [Local.getKEncrypted_congr lp l1 hwfp (by rw [hm1, hma]) (by rw [hk1, hka])
      (by rw [he1, hea]) v, hoffs] at hoffs1
    injection hoffs1 with hoffs1
    subst hoffs1
    rw [hex]
    have hall1 : (offs.all fun o => Local.bitIsSet l1.bitmap o.toNat) = true := by
      rw [List.all_eq_true]
      intro o ho
      exact hmono _ (hbits o ho)
    rw [hall1]

/-- Witness for C1 at the parameters of the concrete scenario, `m = 64` and `k = 3`,
with another element set first: `Set("hello")`, `Set("alpha")`, then `Exist("alpha")`. -/
theorem Local.no_false_negatives_witness :
    ∃ l0 l1, Local.NewBloomService 64 3 helloEncryptor = .ok l0 ∧
      l0.setAll (["hello"] ++ "alpha" :: []) = .ok l1 ∧ l1.Exist "alpha" = .ok (true, l1) :=
  Local.no_false_negatives 64 3 helloEncryptor (by decide) (by decide) (by decide) (by decide)
    ["hello"] "alpha" []

/-- C2: offset bounds of the local engine.  For `m > 0` and `k > 0`, the local
`getKEncrypted` returns offsets that all satisfy `0 <= offset < m`. -/
theorem Local.offset_bounds (l : Local.BloomService) (hk32 : isInt32 l.k) (hm : 0 < l.m)
    (hk : 0 < l.k) (val : String) :
    ∃ offs, l.getKEncrypted val = .ok offs ∧ ∀ o ∈ offs, 0 ≤ o ∧ o < l.m := by
  obtain ⟨offs, hoffs, _, hrange⟩ := Local.offsets_spec l hk32 hm hk val
  exact ⟨offs, hoffs, hrange⟩

/-- Witness for C2 with `m = 64` and `k = 3`. -/
theorem Local.offset_bounds_witness :
    ∃ offs, Local.BloomService.getKEncrypted ⟨64, 3, 0, [0, 0, 0], helloEncryptor⟩ "alpha"
        = .ok offs ∧ ∀ o ∈ offs, 0 ≤ o ∧ o < 64 :=
  Local.offset_bounds ⟨64, 3, 0, [0, 0, 0], helloEncryptor⟩ (by decide) (by decide) (by decide)
    "alpha"

/-- C3: the remote chain generator does not keep its offsets below `m`.  With
`m = 64`, `k = 1` and the input "hello", whose murmur3 sum is 613153351, the remote
`getKEncrypted` returns the single offset 613153351, which is not below 64. -/
theorem Redis.raw_offset_not_below_m {Client : Type} (client : Client) (enc : Encryptor)
    (h : enc.sum32 "hello" = 613153351) :
    (Redis.NewBloomService 64 1 client enc).getKEncrypted "hello" = .ok [613153351] ∧
      ¬ ((613153351 : Int) < (Redis.NewBloomService 64 1 client enc).m) := by
  constructor
  · have h1 : isInt32 1 := by decide
    have h2 : (0 : Int) < 1 := by decide
    rw [Redis.rawOffsets_eq (Redis.NewBloomService 64 1 client enc) h1 h2]
    show Except.ok (hashChain enc 1 "hello") = _
    simp only [hashChain, Encryptor.Encrypt, h, MaxInt32]
    rfl
  · show ¬ ((613153351 : Int) < 64)
    decide

/-- Witness for C3: an encryptor whose hash primitive has the murmur3 value at "hello". -/
theorem Redis.raw_offset_not_below_m_witness :
    helloEncryptor.sum32 "hello" = 613153351 ∧
      (Redis.NewBloomService 64 1 () helloEncryptor).getKEncrypted "hello" = .ok [613153351] ∧
      ¬ ((613153351 : Int) < (Redis.NewBloomService 64 1 () helloEncryptor).m) :=
  ⟨rfl, Redis.raw_offset_not_below_m () helloEncryptor rfl⟩

/-- C4 fails as stated: with `k = 1` and `m = 0` (the state built by
`NewBloomService(0, 1, encryptor)`) the local `getKEncrypted` returns no offsets, it
panics on the division by zero in `encrypted % l.m`. -/
theorem Local.chain_length_counterexample :
    Local.NewBloomService 0 1 helloEncryptor = .ok ⟨0, 1, 0, [0], helloEncryptor⟩ ∧
      Local.BloomService.getKEncrypted ⟨0, 1, 0, [0], helloEncryptor⟩ "hello"
        = .error Fault.divideByZero :=
  ⟨rfl, rfl⟩

/-- C4, amended: for every `k > 0` and every input string, the local `getKEncrypted`
returns exactly `k` offsets whenever `m` is not 0, and the remote `getKEncrypted`
returns exactly `k` offsets for every `m`. -/
theorem chain_length (l : Local.BloomService) {Client : Type} (b : Redis.BloomService Client)
    (val : String) (hlk32 : isInt32 l.k) (hlk : 0 < l.k) (hlm : l.m ≠ 0)
    (hbk32 : isInt32 b.k) (hbk : 0 < b.k) :
    (∃ offs, l.getKEncrypted val = .ok offs ∧ (offs.length : Int) = l.k) ∧
      (∃ offs, b.getKEncrypted val = .ok offs ∧ (offs.length : Int) = b.k) := by
  constructor
  · refine ⟨_, Local.getKEncrypted_eq l hlk32 hlk hlm val, ?_⟩
    rw [List.length_map, hashChain_length]
    omega
  · refine ⟨_, Redis.rawOffsets_eq b hbk32 hbk val, ?_⟩
    rw [hashChain_length]
    omega

/-- Witness for the amended C4: `k = 3`, a negative `m` on the local side and `m = 0`
on the remote side. -/
theorem chain_length_witness :
    (∃ offs, Local.BloomService.getKEncrypted ⟨-5, 3, 0, [0], helloEncryptor⟩ "alpha"
        = .ok offs ∧ (offs.length : Int) = 3) ∧
      (∃ offs, (Redis.NewBloomService 0 3 () helloEncryptor).getKEncrypted "alpha"
        = .ok offs ∧ (offs.length : Int) = 3) :=
  chain_length ⟨-5, 3, 0, [0], helloEncryptor⟩ (Redis.NewBloomService 0 3 () helloEncryptor)
    "alpha" (by decide) (by decide) (by decide) (by decide) (by decide)

/-- C5: monotone bits.  On every well-formed state of the local engine, every
sequence of `Set` calls runs to completion and every logical bit that is 1 before
the sequence is still 1 after it. -/
theorem Local.monotone_bits (l : Local.BloomService) (hwf : l.WellFormed)
    (vals : List String) :
    ∃ l1, l.setAll vals = .ok l1 ∧
      ∀ j, Local.bitIsSet l.bitmap j = true → Local.bitIsSet l1.bitmap j = true := by
  obtain ⟨l1, hall, _, _, _, _, _, hmono⟩ := Local.setAll_spec vals l hwf
  exact ⟨l1, hall, hmono⟩

/-- Witness for C5: a state with `m = 64`, `k = 3` and some bits already set. -/
theorem Local.monotone_bits_witness :
    ∃ l1, Local.BloomService.setAll ⟨64, 3, 7, [5, 0, 1], helloEncryptor⟩ ["alpha", "beta"]
        = .ok l1 ∧
      ∀ j, Local.bitIsSet [5, 0, 1] j = true → Local.bitIsSet l1.bitmap j = true :=
  Local.monotone_bits ⟨64, 3, 7, [5, 0, 1], helloEncryptor⟩ (by decide) ["alpha", "beta"]

/-- C6: the decision of the local `Exist`.  On every well-formed state, `Exist val`
returns true exactly when, for every offset `o` of `getKEncrypted val`, bit `o mod 32`
of bitmap word `o div 32` is 1; the state after the call is the state before it. -/
theorem Local.exist_decision (l : Local.BloomService) (hwf : l.WellFormed) (val : String) :
    ∃ offs found, l.getKEncrypted val = .ok offs ∧ l.Exist val = .ok (found, l) ∧
      (found = true ↔
        ∀ o ∈ offs, Int.testBit (l.bitmap.getD (o.toNat / 32) 0) (o.toNat % 32) = true) := by
  obtain ⟨offs, hoffs, _, hex⟩ := Local.Exist_spec l hwf val
  refine ⟨offs, _, hoffs, hex, ?_⟩
  rw [List.all_eq_true]
  constructor
  · intro h o ho
    rw [← Local.bitIsSet_eq]
    exact h o ho
  · intro h o ho
    rw [Local.bitIsSet_eq]
    exact h o ho

/-- Witness for C6 on a state with `m = 64` and `k = 3`. -/
theorem Local.exist_decision_witness :
    ∃ offs found,
      Local.BloomService.getKEncrypted ⟨64, 3, 7, [5, 0, 1], helloEncryptor⟩ "alpha" = .ok offs ∧
      Local.BloomService.Exist ⟨64, 3, 7, [5, 0, 1], helloEncryptor⟩ "alpha"
        = .ok (found, ⟨64, 3, 7, [5, 0, 1], helloEncryptor⟩) ∧
      (found = true ↔
        ∀ o ∈ offs, Int.testBit (([5, 0, 1] : List Int).getD (o.toNat / 32) 0) (o.toNat % 32)
          = true) :=
  Local.exist_decision ⟨64, 3, 7, [5, 0, 1], helloEncryptor⟩ (by decide) "alpha"

/-- C7: the local `Set` is idempotent on the bit array.  On every well-formed state,
the bitmap after `Set val; Set val` equals the bitmap after the first `Set val`. -/
theorem Local.set_idempotent (l : Local.BloomService) (hwf : l.WellFormed) (val : String) :
    ∃ l1 l2, l.Set val = .ok l1 ∧ l1.Set val = .ok l2 ∧ l2.bitmap = l1.bitmap := by
  obtain ⟨offs, bm, hoffs, _, hset, _, hbits⟩ := Local.Set_spec l hwf val
  obtain ⟨hwf1, hm1, hk1, he1, _, _⟩ := Local.Set_wellFormed l _ hwf val hset
  obtain ⟨offs2, bm2, hoffs2, _, hset2, hlen2, hbits2⟩ := Local.Set_spec _ hwf1 val
  rw [Local.getKEncrypted_congr l _ hwf hm1 hk1 he1 val, hoffs] at hoffs2
  injection hoffs2 with hoffs2
  subst hoffs2
  refine ⟨_, _, hset, hset2, ?_⟩
  show bm2 = bm
  apply list_eq_of_getD _ _ hlen2
  intro i
  apply int_eq_of_testBit_eq
  intro q
  rw [Bool.eq_iff_iff, hbits2 i q]
  constructor
  · rintro (h | h)
    · exact h
    · exact (hbits i q).2 (Or.inr h)
  · exact Or.inl

/-- Witness for C7 on a state with `m = 64` and `k = 3`. -/
theorem Local.set_idempotent_witness :
    ∃ l1 l2, Local.BloomService.Set ⟨64, 3, 7, [5, 0, 1], helloEncryptor⟩ "alpha" = .ok l1 ∧
      l1.Set "alpha" = .ok l2 ∧ l2.bitmap = l1.bitmap :=
  Local.set_idempotent ⟨64, 3, 7, [5, 0, 1], helloEncryptor⟩ (by decide) "alpha"

/-- C8 fails as stated: `n` is an `int32` and wraps.  After 2147483648 `Set` calls on
the filter returned by `NewBloomService(1, 1, encryptor)`, `n` is -2147483648, not
the number of calls. -/
theorem Local.element_count_counterexample :
    ∃ l0 l1, Local.NewBloomService 1 1 helloEncryptor = .ok l0 ∧
      l0.setAll (List.replicate 2147483648 "hello") = .ok l1 ∧
      l1.n = -2147483648 ∧ l1.n ≠ 2147483648 := by
  obtain ⟨l0, hnew, hwf0, _, _, hn0, _⟩ :=
    Local.NewBloomService_wellFormed 1 1 helloEncryptor (by decide) (by decide) (by decide)
      (by decide)
  obtain ⟨l1, hall, _, _, _, _, hn1, _⟩ :=
    Local.setAll_spec (List.replicate 2147483648 "hello") l0 hwf0
  rw [List.length_replicate, hn0] at hn1
  have hn : l1.n = -2147483648 := by
    rw [hn1]
    unfold toInt32
    omega
  exact ⟨l0, l1, hnew, hall, hn, by rw [hn]; decide⟩

/-- C8, amended: `n` is 0 on a filter returned by `NewBloomService`; as long as `n` is
below `2^31 - 1`, every `Set` call increases `n` by exactly 1, whether or not the
value was set before; so after any sequence of `j <= 2^31 - 1` `Set` calls on a new
filter `n` equals `j`. -/
theorem Local.element_count (m k : Int) (enc : Encryptor) (hm32 : isInt32 m)
    (hk32 : isInt32 k) (hm : 0 < m) (hk : 0 < k) (vals : List String) (v : String)
    (hj : vals.length < 2147483647) :
    ∃ l0 l1 l2, Local.NewBloomService m k enc = .ok l0 ∧ l0.n = 0 ∧
      l0.setAll vals = .ok l1 ∧ l1.n = vals.length ∧
      l1.Set v = .ok l2 ∧ l2.n = l1.n + 1 := by
  obtain ⟨l0, hnew, hwf0, _, _, hn0, _⟩ :=
    Local.NewBloomService_wellFormed m k enc hm32 hk32 hm hk
  obtain ⟨l1, hall, hwf1, _, _, _, hn1, _⟩ := Local.setAll_spec vals l0 hwf0
  obtain ⟨_, _, _, _, hset, _, _⟩ := Local.Set_spec l1 hwf1 v
  rw [hn0, Int.zero_add, toInt32_of_isInt32 (by unfold isInt32; omega)] at hn1
  refine ⟨l0, l1, _, hnew, hn0, hall, hn1, hset, ?_⟩
  exact toInt32_of_isInt32 (by unfold isInt32; omega)

/-- Witness for the amended C8: `m = 64`, `k = 3`, two `Set` calls of the same value
and then a third one. -/
theorem Local.element_count_witness :
    ∃ l0 l1 l2, Local.NewBloomService 64 3 helloEncryptor = .ok l0 ∧ l0.n = 0 ∧
      l0.setAll ["alpha", "alpha"] = .ok l1 ∧
      l1.n = (["alpha", "alpha"] : List String).length ∧
      l1.Set "alpha" = .ok l2 ∧ l2.n = l1.n + 1 :=
  Local.element_count 64 3 helloEncryptor (by decide) (by decide) (by decide) (by decide)
    ["alpha", "alpha"] "alpha" (by decide)

/-- C9: the local operations cannot fail.  On the filter returned by
`NewBloomService m k` with `m > 0` and `k > 0`, after any sequence of `Set` calls, `m`
is not 0, the bitmap has `m/32 + 1` words, every word index `offset >> 5` of
`getKEncrypted val` is within the bitmap, and `Set val` and `Exist val` both return
without a panic. -/
theorem Local.operations_cannot_fail (m k : Int) (enc : Encryptor) (hm32 : isInt32 m)
    (hk32 : isInt32 k) (hm : 0 < m) (hk : 0 < k) (ws : List String) (val : String) :
    ∃ l0 l offs l1 found, Local.NewBloomService m k enc = .ok l0 ∧ l0.setAll ws = .ok l ∧
      l.m ≠ 0 ∧ (l.bitmap.length : Int) = Int.tdiv m 32 + 1 ∧
      l.getKEncrypted val = .ok offs ∧
      (∀ o ∈ offs, 0 ≤ o >>> (5 : Nat) ∧ o >>> (5 : Nat) < (l.bitmap.length : Int)) ∧
      l.Set val = .ok l1 ∧ l.Exist val = .ok (found, l) := by
  obtain ⟨l0, hnew, hwf0, hm0, _, _, _⟩ :=
    Local.NewBloomService_wellFormed m k enc hm32 hk32 hm hk
  obtain ⟨l, hall, hwf, hml, _, _, _, _⟩ := Local.setAll_spec ws l0 hwf0
  obtain ⟨offs, _, hoffs, hrange, hset, _, _⟩ := Local.Set_spec l hwf val
  obtain ⟨offs1, hoffs1, _, hex⟩ := Local.Exist_spec l hwf val
  refine ⟨l0, l, offs, _, _, hnew, hall, ?_, ?_, hoffs, ?_, hset, hex⟩
  · have := hwf.2.2.2.1
    omega
  · rw [hwf.2.2.2.2.2, hml, hm0]
  · intro o ho
    have hb := Local.wellFormed_bound l hwf o (hrange o ho)
    rw [shiftRight5 o hb.1]
    omega

/-- Witness for C9: `m = 64`, `k = 3`, one earlier `Set`. -/
theorem Local.operations_cannot_fail_witness :
    ∃ l0 l offs l1 found, Local.NewBloomService 64 3 helloEncryptor = .ok l0 ∧
      l0.setAll ["beta"] = .ok l ∧
      l.m ≠ 0 ∧ (l.bitmap.length : Int) = Int.tdiv 64 32 + 1 ∧
      l.getKEncrypted "alpha" = .ok offs ∧
      (∀ o ∈ offs, 0 ≤ o >>> (5 : Nat) ∧ o >>> (5 : Nat) < (l.bitmap.length : Int)) ∧
      l.Set "alpha" = .ok l1 ∧ l.Exist "alpha" = .ok (found, l) :=
  Local.operations_cannot_fail 64 3 helloEncryptor (by decide) (by decide) (by decide)
    (by decide) ["beta"] "alpha"

/-- C10 fails as stated: `NewBloomService(0, 0, encryptor)` of the local engine returns
a filter, on which `Exist` answers true for a value that was never set. -/
theorem Local.construction_counterexample :
    Local.NewBloomService 0 0 helloEncryptor = .ok ⟨0, 0, 0, [0], helloEncryptor⟩ ∧
      Local.BloomService.Exist ⟨0, 0, 0, [0], helloEncryptor⟩ "hello"
        = .ok (true, ⟨0, 0, 0, [0], helloEncryptor⟩) :=
  ⟨rfl, rfl⟩

/-- C10, amended: the local `NewBloomService` fails at construction exactly when
`m <= -64` (the slice length `m/32 + 1` is negative); for every other `m`, also
`-64 < m <= 0`, and for every `k`, also `k <= 0`, it returns a filter that holds `m`
and `k` unchecked, with `n = 0` and `m/32 + 1` zero words.  The remote
`NewBloomService` returns a filter holding `m` and `k` for every `m` and `k`. -/
theorem construction_unchecked (m k : Int) (enc : Encryptor) (hm32 : isInt32 m)
    {Client : Type} (client : Client) :
    Local.NewBloomService m k enc =
        (if m ≤ -64 then .error Fault.makeSliceLen
         else .ok ⟨m, k, 0, List.replicate (Int.tdiv m 32 + 1).toNat 0, enc⟩) ∧
      (Redis.NewBloomService m k client enc).m = m ∧
      (Redis.NewBloomService m k client enc).k = k :=
  ⟨Local.NewBloomService_eq m k enc hm32, rfl, rfl⟩

/-- Witness for the amended C10 at `m = -3`, `k = -1`. -/
theorem construction_unchecked_witness :
    Local.NewBloomService (-3) (-1) helloEncryptor =
        (if (-3 : Int) ≤ -64 then .error Fault.makeSliceLen
         else .ok ⟨-3, -1, 0, List.replicate (Int.tdiv (-3) 32 + 1).toNat 0, helloEncryptor⟩) ∧
      (Redis.NewBloomService (-3) (-1) () helloEncryptor).m = -3 ∧
      (Redis.NewBloomService (-3) (-1) () helloEncryptor).k = -1 :=
  construction_unchecked (-3) (-1) helloEncryptor (by decide) ()

/-! ## Further lemmas on the local engine and the hash chain -/

theorem referenceHash_succ (e : Encryptor) (val : String) (i : Nat) :
    referenceHash e val (i + 1) = referenceHash e (ToString (e.Encrypt val)) i := by
  induction i with
  | zero => simp only [referenceHash]
  | succ i ih => rw [referenceHash.eq_2 e val (i + 1), ih, referenceHash.eq_2]

theorem referenceChain_succ (e : Encryptor) (k : Nat) (val : String) :
    referenceChain e val (k + 1) =
      e.Encrypt val :: referenceChain e (ToString (e.Encrypt val)) k := by
  simp only [referenceChain]
  rw [List.range_succ_eq_map, List.map_cons, List.map_map, referenceHash.eq_1]
  refine congrArg _ ?_
  apply List.map_congr_left
  intro i _
  rw [Function.comp_apply, Nat.succ_eq_add_one]
  exact referenceHash_succ e val i

theorem hashChain_eq_referenceChain (e : Encryptor) (k : Nat) (val : String) :
    hashChain e k val = referenceChain e val k := by
  induction k generalizing val with
  | zero => simp only [hashChain, referenceChain, List.range_zero, List.map_nil]
  | succ k ih => rw [referenceChain_succ, hashChain.eq_2, ih]

theorem getD_replicate_zero (n i : Nat) : (List.replicate n (0 : Int)).getD i 0 = 0 := by
  rw [List.getD_eq_getElem?_getD, List.getElem?_replicate]
  split <;> rfl

theorem ceil_div_32 (m : Int) : Int.ceil ((m : ℚ) / 32) = (m + 31) / 32 := by
  rw [Int.ceil_eq_iff]
  have h1 : 32 * ((m + 31) / 32) ≤ m + 31 := by omega
  have h2 : m ≤ 32 * ((m + 31) / 32) := by omega
  have h3 : ((32 * ((m + 31) / 32) : Int) : ℚ) ≤ ((m + 31 : Int) : ℚ) := by exact_mod_cast h1
  have h4 : ((m : Int) : ℚ) ≤ ((32 * ((m + 31) / 32) : Int) : ℚ) := by exact_mod_cast h2
  push_cast at h3 h4
  constructor
  · rw [lt_div_iff₀ (by norm_num)]
    linarith
  · rw [div_le_iff₀ (by norm_num)]
    linarith

theorem floor_div_32 (m : Int) : Int.floor ((m : ℚ) / 32) = m / 32 := by
  have h := Rat.floor_intCast_div_natCast m 32
  simpa using h

/-! ## The remote engine and the store -/

namespace Redis

theorem scripts_differ : LuaBloomBatchGetBits ≠ LuaBloomBatchSetBits := by
  decide

theorem batchSetBitsLoop_other {R : Type} (A B : String) (hAB : A ≠ B) (ARGV : List (Value R)) :
    ∀ (n i : Nat) (s : Store) (o : Int), (batchSetBitsLoop A ARGV n i s).2 B o = s B o := by
  intro n
  induction n with
  | zero => intro i s o; rfl
  | succ n ih =>
    intro i s o
    unfold batchSetBitsLoop
    cases argNumber (ARGV.get? i) with
    | none => rfl
    | some offset =>
      simp only [setbit]
      by_cases hr : 0 ≤ offset ∧ offset < 4294967296
      · simp only [if_pos hr]
        rw [ih]
        simp [Ne.symm hAB]
      · simp only [if_neg hr]

theorem getElem_append_map {R : Type} (pre : List (Value R)) (x : Int) (rest : List Int) :
    (pre ++ (x :: rest).map Value.int32).get? pre.length = some (Value.int32 x) := by
  rw [List.get?_eq_getElem?, List.getElem?_append_right (le_refl _)]
  simp

theorem batchSetBitsLoop_spec {R : Type} (key : String) (offs : List Int) :
    ∀ (pre : List (Value R)) (s : Store), (∀ o ∈ offs, 0 ≤ o ∧ o < 4294967296) →
    ∃ s1, batchSetBitsLoop key (pre ++ offs.map Value.int32) offs.length pre.length s = (none, s1) ∧
      ∀ k o, s1 k o = true ↔ (s k o = true ∨ (k = key ∧ o ∈ offs)) := by
  induction offs with
  | nil =>
    intro pre s _
    exact ⟨s, rfl, fun k o => by simp⟩
  | cons x rest ih =>
    intro pre s hr
    have hx := hr x (List.mem_cons_self _ _)
    obtain ⟨s1, hs1, hbits⟩ := ih (pre ++ [Value.int32 x])
      (fun k o => if k = key ∧ o = x then true else s k o)
      (fun o ho => hr o (List.mem_cons_of_mem _ ho))
    refine ⟨s1, ?_, ?_⟩
    · rw [List.length_cons]
      unfold batchSetBitsLoop
      rw [getElem_append_map]
      simp only [argNumber, setbit, if_pos hx]
      rw [List.append_assoc, List.length_append] at hs1
      exact hs1
    · intro k o
      rw [hbits k o, List.mem_cons]
      by_cases h : k = key ∧ o = x
      · simp [h]
      · simp only [if_neg h]
        constructor
        · rintro (h1 | h1)
          · exact Or.inl h1
          · exact Or.inr ⟨h1.1, Or.inr h1.2⟩
        · rintro (h1 | ⟨h1, h2 | h2⟩)
          · exact Or.inl h1
          · exact absurd ⟨h1, h2⟩ h
          · exact Or.inr ⟨h1, h2⟩

theorem batchGetBitsLoop_spec {R : Type} (s : Store) (key : String) (offs : List Int) :
    ∀ (pre : List (Value R)), (∀ o ∈ offs, 0 ≤ o ∧ o < 4294967296) →
    batchGetBitsLoop s key (pre ++ offs.map Value.int32) offs.length pre.length =
      .ok (if offs.all (fun o => s key o) then 1 else 0) := by
  induction offs with
  | nil => intro pre _; rfl
  | cons x rest ih =>
    intro pre hr
    have hx := hr x (List.mem_cons_self _ _)
    have hrest := ih (pre ++ [Value.int32 x]) (fun o ho => hr o (List.mem_cons_of_mem _ ho))
    rw [List.append_assoc, List.length_append] at hrest
    rw [List.length_cons]
    unfold batchGetBitsLoop
    rw [getElem_append_map]
    simp only [argNumber, getbit, if_pos hx, List.all_cons]
    by_cases hb : s key x = true
    · simp only [hb, if_true, Bool.true_and]
      rw [if_neg (by decide)]
      exact hrest
    · have hf : s key x = false := by simpa using hb
      simp [hf]

theorem batchGetBitsLoop_congr {R : Type} (s1 s : Store) (B : String) (ARGV : List (Value R))
    (h : ∀ o, s1 B o = s B o) :
    ∀ (n i : Nat), batchGetBitsLoop s1 B ARGV n i = batchGetBitsLoop s B ARGV n i := by
  intro n
  induction n with
  | zero => intro i; rfl
  | succ n ih =>
    intro i
    unfold batchGetBitsLoop
    cases argNumber (ARGV.get? i) with
    | none => rfl
    | some offset =>
      simp only [getbit, h offset, ih]

theorem storeEval_set (s : Store) (key : String) (k : Int) (offs : List Int) :
    storeClient.Eval s LuaBloomBatchSetBits 1
        ([Value.string key, Value.int32 k] ++ offs.map Value.int32) =
      match batchSetBitsLoop key (Value.int32 k :: offs.map Value.int32 : List (Value StoreReply)) k.toNat 1 s with
      | (some e, s1) => ((Value.reply StoreReply.null, some e), s1)
      | (none, s1) => ((Value.reply (StoreReply.integer 1), none), s1) := by
  simp only [Client.Eval, storeClient, storeDo, if_true, List.cons_append, List.nil_append,
    Int.toNat_one, List.take_succ_cons, List.take_zero, List.drop_succ_cons, List.drop_zero,
    List.get?_cons_zero, argKey, argNumber]
  cases batchSetBitsLoop key (Value.int32 k :: offs.map Value.int32 : List (Value StoreReply)) k.toNat 1 s with
  | mk e s1 => cases e <;> rfl

theorem storeEval_get (s : Store) (key : String) (k : Int) (offs : List Int) :
    storeClient.Eval s LuaBloomBatchGetBits 1
        ([Value.string key, Value.int32 k] ++ offs.map Value.int32) =
      match batchGetBitsLoop s key (Value.int32 k :: offs.map Value.int32 : List (Value StoreReply)) k.toNat 1 with
      | .error e => ((Value.reply StoreReply.null, some e), s)
      | .ok v => ((Value.reply (StoreReply.integer v), none), s) := by
  simp only [Client.Eval, storeClient, storeDo, if_true, List.cons_append, List.nil_append,
    Int.toNat_one, List.take_succ_cons, List.take_zero, List.drop_succ_cons, List.drop_zero,
    List.get?_cons_zero, argKey, argNumber, if_neg scripts_differ]
  cases batchGetBitsLoop s key (Value.int32 k :: offs.map Value.int32 : List (Value StoreReply)) k.toNat 1 with
  | error e => rfl
  | ok v => rfl

theorem Set_eq {σ R E : Type} (b : BloomService (Client σ R E)) (ToInt : Value R → Int) (s : σ)
    (key val : String) (offs : List Int) (hcap : 0 ≤ toInt32 (b.k + 2))
    (hoffs : b.getKEncrypted val = .ok offs) (rawResp : Value R) (err : Option E) (s1 : σ)
    (hev : b.client.Eval s LuaBloomBatchSetBits 1
      ([Value.string key, Value.int32 b.k] ++ offs.map Value.int32) = ((rawResp, err), s1)) :
    b.Set ToInt s key val = .ok
      (match err with
        | some e => some (Error.transport e)
        | none =>
          if ToInt rawResp = 1 then none
          else some (Error.errorf ("resp: " ++ toString (ToInt rawResp))), s1) := by
  unfold BloomService.Set
  rw [if_neg (by omega)]
  simp only [hoffs, hev]
  cases err with
  | some e => rfl
  | none =>
    by_cases h : ToInt rawResp = 1
    · simp [h]
    · simp [h]

theorem Exist_eq {σ R E : Type} (b : BloomService (Client σ R E)) (ToInt : Value R → Int) (s : σ)
    (key val : String) (offs : List Int) (hcap : 0 ≤ toInt32 (b.k + 2))
    (hoffs : b.getKEncrypted val = .ok offs) (rawResp : Value R) (err : Option E) (s1 : σ)
    (hev : b.client.Eval s LuaBloomBatchGetBits 1
      ([Value.string key, Value.int32 b.k] ++ offs.map Value.int32) = ((rawResp, err), s1)) :
    b.Exist ToInt s key val = .ok
      (match err with
        | some e => (false, some (Error.transport e))
        | none => (decide (ToInt rawResp = 1), none), s1) := by
  unfold BloomService.Exist
  rw [if_neg (by omega)]
  simp only [hoffs, hev]
  cases err with
  | some e => rfl
  | none =>
    by_cases h : ToInt rawResp = 1
    · simp [h]
    · simp [h]

theorem cap_ok {k : Int} (hk32 : isInt32 k) (hk : 0 < k) (hkmax : k ≤ 2147483645) :
    0 ≤ toInt32 (k + 2) := by
  unfold isInt32 at hk32
  unfold toInt32
  omega

theorem cap_bound {k : Int} (hk32 : isInt32 k) (hk : 0 < k) (hcap : ¬ toInt32 (k + 2) < 0) :
    k ≤ 2147483645 := by
  unfold isInt32 at hk32
  unfold toInt32 at hcap
  omega

theorem hashChain_setbit_range (e : Encryptor) (n : Nat) (val : String) :
    ∀ o ∈ hashChain e n val, 0 ≤ o ∧ o < 4294967296 := by
  intro o ho
  have h := hashChain_range e n val o ho
  omega

theorem Set_store (b : BloomService (Client Store StoreReply String))
    (hc : b.client = storeClient) (ToInt : Value StoreReply → Int) (s : Store)
    (key val : String) (hk32 : isInt32 b.k) (hk : 0 < b.k) (hkmax : b.k ≤ 2147483645) :
    ∃ s1, b.Set ToInt s key val = .ok
        (if ToInt (Value.reply (StoreReply.integer 1)) = 1 then none
         else some (Error.errorf
           ("resp: " ++ toString (ToInt (Value.reply (StoreReply.integer 1))))), s1) ∧
      ∀ k o, s1 k o = true ↔
        (s k o = true ∨ (k = key ∧ o ∈ hashChain b.encryptor b.k.toNat val)) := by
  have hoffs := rawOffsets_eq b hk32 hk val
  obtain ⟨s1, hloop, hbits⟩ := batchSetBitsLoop_spec (R := StoreReply) key
    (hashChain b.encryptor b.k.toNat val) [Value.int32 b.k] s
    (hashChain_setbit_range _ _ _)
  rw [hashChain_length] at hloop
  have hev : b.client.Eval s LuaBloomBatchSetBits 1
      ([Value.string key, Value.int32 b.k] ++
        (hashChain b.encryptor b.k.toNat val).map Value.int32) =
      ((Value.reply (StoreReply.integer 1), none), s1) := by
    rw [hc, storeEval_set]
    show (match batchSetBitsLoop key ([Value.int32 b.k] ++
      (hashChain b.encryptor b.k.toNat val).map Value.int32) b.k.toNat ([Value.int32 b.k] :
        List (Value StoreReply)).length s with
      | (some e, s1) => ((Value.reply StoreReply.null, some e), s1)
      | (none, s1) => ((Value.reply (StoreReply.integer 1), none), s1)) = _
    rw [hloop]
  exact ⟨s1, Set_eq b ToInt s key val _ (cap_ok hk32 hk hkmax) hoffs _ _ _ hev, hbits⟩

theorem Exist_store (b : BloomService (Client Store StoreReply String))
    (hc : b.client = storeClient) (ToInt : Value StoreReply → Int) (s : Store)
    (key val : String) (hk32 : isInt32 b.k) (hk : 0 < b.k) (hkmax : b.k ≤ 2147483645) :
    b.Exist ToInt s key val = .ok
      ((decide (ToInt (Value.reply (StoreReply.integer
          (if (hashChain b.encryptor b.k.toNat val).all (fun o => s key o) then 1 else 0))) = 1),
        none), s) := by
  have hoffs := rawOffsets_eq b hk32 hk val
  have hloop := batchGetBitsLoop_spec (R := StoreReply) s key
    (hashChain b.encryptor b.k.toNat val) [Value.int32 b.k] (hashChain_setbit_range _ _ _)
  rw [hashChain_length] at hloop
  have hev : b.client.Eval s LuaBloomBatchGetBits 1
      ([Value.string key, Value.int32 b.k] ++
        (hashChain b.encryptor b.k.toNat val).map Value.int32) =
      ((Value.reply (StoreReply.integer
        (if (hashChain b.encryptor b.k.toNat val).all (fun o => s key o) then 1 else 0)),
          none), s) := by
    rw [hc, storeEval_get]
    show (match batchGetBitsLoop s key ([Value.int32 b.k] ++
      (hashChain b.encryptor b.k.toNat val).map Value.int32) b.k.toNat ([Value.int32 b.k] :
        List (Value StoreReply)).length with
      | .error e => ((Value.reply StoreReply.null, some e), s)
      | .ok v => ((Value.reply (StoreReply.integer v), none), s)) = _
    rw [hloop]
  exact Exist_eq b ToInt s key val _ (cap_ok hk32 hk hkmax) hoffs _ _ _ hev

theorem Set_cap {σ R E : Type} (b : BloomService (Client σ R E)) (ToInt : Value R → Int) (s : σ)
    (key val : String) (out : Option (Error E) × σ) (h : b.Set ToInt s key val = .ok out) :
    0 ≤ toInt32 (b.k + 2) ∧ ∃ offs, b.getKEncrypted val = .ok offs := by
  unfold BloomService.Set at h
  by_cases hcap : toInt32 (b.k + 2) < 0
  · rw [if_pos hcap] at h
    cases h
  · rw [if_neg hcap] at h
    refine ⟨by omega, ?_⟩
    cases hoffs : b.getKEncrypted val with
    | error f =>
      rw [hoffs] at h
      cases h
    | ok offs => exact ⟨offs, rfl⟩

theorem Exist_store_general (b : BloomService (Client Store StoreReply String))
    (hc : b.client = storeClient) (ToInt : Value StoreReply → Int) (s : Store)
    (key val : String) (offs : List Int) (hcap : 0 ≤ toInt32 (b.k + 2))
    (hoffs : b.getKEncrypted val = .ok offs) :
    b.Exist ToInt s key val = .ok
      (match batchGetBitsLoop s key
          (Value.int32 b.k :: offs.map Value.int32 : List (Value StoreReply)) b.k.toNat 1 with
        | .error e => (false, some (Error.transport e))
        | .ok v => (decide (ToInt (Value.reply (StoreReply.integer v)) = 1), none), s) := by
  cases hloop : batchGetBitsLoop s key
      (Value.int32 b.k :: offs.map Value.int32 : List (Value StoreReply)) b.k.toNat 1 with
  | error e =>
    have hev : b.client.Eval s LuaBloomBatchGetBits 1
        ([Value.string key, Value.int32 b.k] ++ offs.map Value.int32) =
        ((Value.reply StoreReply.null, some e), s) := by
      rw [hc, storeEval_get, hloop]
    exact Exist_eq b ToInt s key val offs hcap hoffs _ _ _ hev
  | ok v =>
    have hev : b.client.Eval s LuaBloomBatchGetBits 1
        ([Value.string key, Value.int32 b.k] ++ offs.map Value.int32) =
        ((Value.reply (StoreReply.integer v), none), s) := by
      rw [hc, storeEval_get, hloop]
    exact Exist_eq b ToInt s key val offs hcap hoffs _ _ _ hev

theorem Exist_store_frame (b : BloomService (Client Store StoreReply String))
    (hc : b.client = storeClient) (ToInt : Value StoreReply → Int) (s : Store)
    (key val : String) :
    (b.Exist ToInt s key val).map Prod.snd = (b.Exist ToInt s key val).map (fun _ => s) := by
  by_cases hcap : toInt32 (b.k + 2) < 0
  · unfold BloomService.Exist
    rw [if_pos hcap]
    rfl
  · cases hoffs : b.getKEncrypted val with
    | error f =>
      unfold BloomService.Exist
      rw [if_neg hcap]
      simp only [hoffs]
      rfl
    | ok offs =>
      rw [Exist_store_general b hc ToInt s key val offs (by omega) hoffs]
      rfl

theorem Exist_store_congr (b : BloomService (Client Store StoreReply String))
    (hc : b.client = storeClient) (ToInt : Value StoreReply → Int) (s1 s : Store)
    (B w : String) (h : ∀ o, s1 B o = s B o) :
    (b.Exist ToInt s1 B w).map Prod.fst = (b.Exist ToInt s B w).map Prod.fst := by
  by_cases hcap : toInt32 (b.k + 2) < 0
  · simp only [BloomService.Exist, if_pos hcap]
  · cases hoffs : b.getKEncrypted w with
    | error f => simp only [BloomService.Exist, if_neg hcap, hoffs]
    | ok offs =>
      rw [Exist_store_general b hc ToInt s1 B w offs (by omega) hoffs,
        Exist_store_general b hc ToInt s B w offs (by omega) hoffs,
        batchGetBitsLoop_congr s1 s B _ h]
      rfl

theorem Set_store_other (b : BloomService (Client Store StoreReply String))
    (hc : b.client = storeClient) (ToInt : Value StoreReply → Int) (s s1 : Store)
    (A B v : String) (res : Option (Error String)) (hAB : A ≠ B)
    (hset : b.Set ToInt s A v = .ok (res, s1)) : ∀ o, s1 B o = s B o := by
  obtain ⟨hcap, offs, hoffs⟩ := Set_cap b ToInt s A v _ hset
  rcases hev : b.client.Eval s LuaBloomBatchSetBits 1
      ([Value.string A, Value.int32 b.k] ++ offs.map Value.int32) with ⟨⟨rawResp, err⟩, sx⟩
  rw [Set_eq b ToInt s A v offs hcap hoffs rawResp err sx hev] at hset
  injection hset with hset
  injection hset with _ hs
  subst hs
  have hstate : sx = (batchSetBitsLoop A
      (Value.int32 b.k :: offs.map Value.int32 : List (Value StoreReply)) b.k.toNat 1 s).2 := by
    rw [hc, storeEval_set] at hev
    rcases hloop : batchSetBitsLoop A
        (Value.int32 b.k :: offs.map Value.int32 : List (Value StoreReply)) b.k.toNat 1 s
      with ⟨e, sy⟩
    rw [hloop] at hev
    cases e with
    | none =>
      injection hev with _ h2
      exact h2.symm
    | some e =>
      injection hev with _ h2
      exact h2.symm
  intro o
  rw [hstate]
  exact batchSetBitsLoop_other A B hAB _ _ _ _ o

theorem setAll_store_mono (b : BloomService (Client Store StoreReply String))
    (hc : b.client = storeClient) (ToInt : Value StoreReply → Int)
    (hk32 : isInt32 b.k) (hk : 0 < b.k) (hkmax : b.k ≤ 2147483645)
    (more : List (String × String)) :
    ∀ (s1 s2 : Store), b.setAll ToInt s1 more = some s2 →
      ∀ k o, s1 k o = true → s2 k o = true := by
  induction more with
  | nil =>
    intro s1 s2 h k o hb
    unfold BloomService.setAll at h
    injection h with h
    rw [← h]
    exact hb
  | cons kv rest ih =>
    intro s1 s2 h k o hb
    obtain ⟨sx, hset, hbits⟩ := Set_store b hc ToInt s1 kv.1 kv.2 hk32 hk hkmax
    unfold BloomService.setAll at h
    rw [hset] at h
    by_cases hT : ToInt (Value.reply (StoreReply.integer 1)) = 1
    · simp only [if_pos hT] at h
      exact ih sx s2 h k o ((hbits k o).2 (Or.inl hb))
    · simp only [if_neg hT] at h
      cases h

end Redis

theorem Redis.Set_eq_some {σ R E : Type} (b : Redis.BloomService (Redis.Client σ R E))
    (ToInt : Redis.Value R → Int) (s : σ) (key val : String) (offs : List Int)
    (hcap : 0 ≤ toInt32 (b.k + 2)) (hoffs : b.getKEncrypted val = .ok offs)
    (rawResp : Redis.Value R) (e : E) (s1 : σ)
    (hev : b.client.Eval s Redis.LuaBloomBatchSetBits 1
      ([Redis.Value.string key, Redis.Value.int32 b.k] ++ offs.map Redis.Value.int32)
        = ((rawResp, some e), s1)) :
    b.Set ToInt s key val = .ok (some (Redis.Error.transport e), s1) :=
  Redis.Set_eq b ToInt s key val offs hcap hoffs rawResp (some e) s1 hev

theorem Redis.Set_eq_none {σ R E : Type} (b : Redis.BloomService (Redis.Client σ R E))
    (ToInt : Redis.Value R → Int) (s : σ) (key val : String) (offs : List Int)
    (hcap : 0 ≤ toInt32 (b.k + 2)) (hoffs : b.getKEncrypted val = .ok offs)
    (rawResp : Redis.Value R) (s1 : σ)
    (hev : b.client.Eval s Redis.LuaBloomBatchSetBits 1
      ([Redis.Value.string key, Redis.Value.int32 b.k] ++ offs.map Redis.Value.int32)
        = ((rawResp, none), s1)) :
    b.Set ToInt s key val = .ok
      (if ToInt rawResp = 1 then none
       else some (Redis.Error.errorf ("resp: " ++ toString (ToInt rawResp))), s1) :=
  Redis.Set_eq b ToInt s key val offs hcap hoffs rawResp none s1 hev

theorem Redis.Exist_eq_some {σ R E : Type} (b : Redis.BloomService (Redis.Client σ R E))
    (ToInt : Redis.Value R → Int) (s : σ) (key val : String) (offs : List Int)
    (hcap : 0 ≤ toInt32 (b.k + 2)) (hoffs : b.getKEncrypted val = .ok offs)
    (rawResp : Redis.Value R) (e : E) (s1 : σ)
    (hev : b.client.Eval s Redis.LuaBloomBatchGetBits 1
      ([Redis.Value.string key, Redis.Value.int32 b.k] ++ offs.map Redis.Value.int32)
        = ((rawResp, some e), s1)) :
    b.Exist ToInt s key val = .ok ((false, some (Redis.Error.transport e)), s1) :=
  Redis.Exist_eq b ToInt s key val offs hcap hoffs rawResp (some e) s1 hev

theorem Redis.Exist_eq_none {σ R E : Type} (b : Redis.BloomService (Redis.Client σ R E))
    (ToInt : Redis.Value R → Int) (s : σ) (key val : String) (offs : List Int)
    (hcap : 0 ≤ toInt32 (b.k + 2)) (hoffs : b.getKEncrypted val = .ok offs)
    (rawResp : Redis.Value R) (s1 : σ)
    (hev : b.client.Eval s Redis.LuaBloomBatchGetBits 1
      ([Redis.Value.string key, Redis.Value.int32 b.k] ++ offs.map Redis.Value.int32)
        = ((rawResp, none), s1)) :
    b.Exist ToInt s key val = .ok ((decide (ToInt rawResp = 1), none), s1) :=
  Redis.Exist_eq b ToInt s key val offs hcap hoffs rawResp none s1 hev

/-! ## The claims, continued -/

/-- C11 fails as stated: for `m = 1` the bitmap allocated by `NewBloomService` has one
word, not `ceil(1 / 32) + 1 = 2` words. -/
theorem Local.bitmap_length_counterexample :
    Local.NewBloomService 1 1 helloEncryptor = .ok ⟨1, 1, 0, [0], helloEncryptor⟩ ∧
      ((([0] : List Int).length : Nat) : Int) ≠ Int.ceil ((1 : ℚ) / 32) + 1 := by
  refine ⟨rfl, ?_⟩
  have h := ceil_div_32 1
  norm_num at h
  rw [h]
  decide

/-- C11, amended: for every `m > 0` the bitmap allocated by the local `NewBloomService`
has exactly `floor(m / 32) + 1` words, all zero; that is `ceil(m / 32) + 1` words
exactly when `m` is a multiple of 32. -/
theorem Local.bitmap_length (m k : Int) (enc : Encryptor) (hm32 : isInt32 m) (hm : 0 < m) :
    ∃ l0, Local.NewBloomService m k enc = .ok l0 ∧
      (l0.bitmap.length : Int) = Int.floor ((m : ℚ) / 32) + 1 ∧
      (∀ w ∈ l0.bitmap, w = 0) ∧
      ((l0.bitmap.length : Int) = Int.ceil ((m : ℚ) / 32) + 1 ↔ (32 : Int) ∣ m) := by
  refine ⟨_, by rw [Local.NewBloomService_eq m k enc hm32, if_neg (by omega)], ?_, ?_, ?_⟩
  · show ((List.replicate (Int.tdiv m 32 + 1).toNat (0 : Int)).length : Int) = _
    rw [List.length_replicate, tdiv32, if_pos (by omega), floor_div_32]
    omega
  · intro w hw
    exact (List.mem_replicate.1 hw).2
  · show ((List.replicate (Int.tdiv m 32 + 1).toNat (0 : Int)).length : Int) = _ ↔ _
    rw [List.length_replicate, tdiv32, if_pos (by omega), ceil_div_32]
    omega

/-- Witness for the amended C11 at `m = 100`. -/
theorem Local.bitmap_length_witness :
    ∃ l0, Local.NewBloomService 100 3 helloEncryptor = .ok l0 ∧
      (l0.bitmap.length : Int) = Int.floor (((100 : Int) : ℚ) / 32) + 1 ∧
      (∀ w ∈ l0.bitmap, w = 0) ∧
      ((l0.bitmap.length : Int) = Int.ceil (((100 : Int) : ℚ) / 32) + 1 ↔ (32 : Int) ∣ 100) :=
  Local.bitmap_length 100 3 helloEncryptor (by decide) (by decide)

/-- C12: the output range of `Encrypt`.  For every hash primitive and every input,
`Encrypt` is the unsigned 32-bit hash reduced modulo `2^31 - 1`; it is an `int32`
with `0 <= Encrypt(s) <= 2^31 - 2`. -/
theorem Encrypt_output_range (e : Encryptor) (s : String) :
    e.Encrypt s = (((e.sum32 s % 4294967296) % 2147483647 : Nat) : Int) ∧
      isInt32 (e.Encrypt s) ∧ 0 ≤ e.Encrypt s ∧ e.Encrypt s ≤ 2147483646 := by
  have h := Encrypt_range e s
  refine ⟨?_, ?_, h.1, h.2⟩
  · unfold Encryptor.Encrypt toInt32 MaxInt32
    omega
  · unfold isInt32
    omega

/-- C13: the hash chain against its reference definition.  For `k > 0`, `m > 0` and
a remote filter with the same `k` and the same encryptor as the local one, the remote
`getKEncrypted` returns `[h_0, ..., h_(k-1)]` and the local one returns
`[h_0 mod m, ..., h_(k-1) mod m]`, the remote offsets reduced modulo `m` one by one. -/
theorem chain_refines_reference (l : Local.BloomService) {Client : Type}
    (b : Redis.BloomService Client) (val : String) (hk32 : isInt32 l.k) (hk : 0 < l.k)
    (hm : 0 < l.m) (hbk : b.k = l.k) (hbe : b.encryptor = l.encryptor) :
    b.getKEncrypted val = .ok (referenceChain l.encryptor val l.k.toNat) ∧
      l.getKEncrypted val =
        .ok ((referenceChain l.encryptor val l.k.toNat).map (fun h => h % l.m)) ∧
      ∃ remote, b.getKEncrypted val = .ok remote ∧
        l.getKEncrypted val = .ok (remote.map (fun h => h % l.m)) := by
  have hb : b.getKEncrypted val = .ok (referenceChain l.encryptor val l.k.toNat) := by
    rw [Redis.rawOffsets_eq b (by rw [hbk]; exact hk32) (by omega) val, hbk, hbe,
      hashChain_eq_referenceChain]
  have hl : l.getKEncrypted val =
      .ok ((referenceChain l.encryptor val l.k.toNat).map (fun h => h % l.m)) := by
    rw [Local.getKEncrypted_eq l hk32 hk (by omega) val]
    congr 1
    rw [← hashChain_eq_referenceChain]
    apply List.map_congr_left
    intro h hh
    exact Int.tmod_eq_emod (hashChain_range _ _ _ h hh).1 (by omega)
  exact ⟨hb, hl, _, hb, hl⟩

/-- Witness for C13 with `m = 64` and `k = 3` on both sides. -/
theorem chain_refines_reference_witness :
    (Redis.NewBloomService 64 3 () helloEncryptor).getKEncrypted "alpha"
        = .ok (referenceChain helloEncryptor "alpha" 3) ∧
      Local.BloomService.getKEncrypted ⟨64, 3, 0, [0, 0, 0], helloEncryptor⟩ "alpha" =
        .ok ((referenceChain helloEncryptor "alpha" 3).map (fun h => h % 64)) ∧
      ∃ remote, (Redis.NewBloomService 64 3 () helloEncryptor).getKEncrypted "alpha"
          = .ok remote ∧
        Local.BloomService.getKEncrypted ⟨64, 3, 0, [0, 0, 0], helloEncryptor⟩ "alpha" =
          .ok (remote.map (fun h => h % 64)) :=
  chain_refines_reference ⟨64, 3, 0, [0, 0, 0], helloEncryptor⟩
    (Redis.NewBloomService 64 3 () helloEncryptor) "alpha" (by decide) (by decide) (by decide)
    rfl rfl

/-- C14 fails as stated: with `k = 2147483646` the capacity `b.k+2` of
`make([]interface{}, 0, b.k+2)` wraps to a negative `int32`, so the remote `Set`
panics before it makes any `Eval` call. -/
theorem Redis.set_result_counterexample :
    (Redis.NewBloomService 64 2147483646 Redis.storeClient helloEncryptor).Set
        Redis.storeToInt Redis.emptyStore "key" "hello" = .error Fault.makeSliceCap :=
  rfl

/-- C14, amended: the result of the remote `Set` for `0 < k <= 2^31 - 3`.  `Set` makes
exactly one `Eval` call, with the set-bits script, key count 1 and the argument list
`[key, k, o_1, ..., o_k]` of the `k` raw offsets of `val`, and ends in the state that
call leaves; it returns the error of `Eval` unchanged if there is one, otherwise the
error `"resp: <value>"` if the converted response is not 1, and `nil` exactly when
there is no `Eval` error and the response converts to 1. -/
theorem Redis.set_result {σ R E : Type} (m k : Int) (client : Redis.Client σ R E)
    (enc : Encryptor) (ToInt : Redis.Value R → Int) (s : σ) (key val : String)
    (hk32 : isInt32 k) (hk : 0 < k) (hkmax : k ≤ 2147483645) :
    ∃ offs rawResp err s1 res,
      (Redis.NewBloomService m k client enc).getKEncrypted val = .ok offs ∧
      (offs.length : Int) = k ∧
      client.Eval s Redis.LuaBloomBatchSetBits 1
        ([Redis.Value.string key, Redis.Value.int32 k] ++ offs.map Redis.Value.int32)
          = ((rawResp, err), s1) ∧
      (Redis.NewBloomService m k client enc).Set ToInt s key val = .ok (res, s1) ∧
      res = err.elim
        (if ToInt rawResp = 1 then none
         else some (Redis.Error.errorf ("resp: " ++ toString (ToInt rawResp))))
        (fun e => some (Redis.Error.transport e)) ∧
      (res = none ↔ err = none ∧ ToInt rawResp = 1) := by
  have hoffs := Redis.rawOffsets_eq (Redis.NewBloomService m k client enc) hk32 hk val
  have hlen : ((hashChain enc k.toNat val).length : Int) = k := by
    rw [hashChain_length]
    omega
  have hcap := Redis.cap_ok hk32 hk hkmax
  rcases hev : client.Eval s Redis.LuaBloomBatchSetBits 1
      ([Redis.Value.string key, Redis.Value.int32 k] ++
        (hashChain enc k.toNat val).map Redis.Value.int32) with ⟨⟨rawResp, err⟩, s1⟩
  cases err with
  | some e =>
    exact ⟨_, rawResp, some e, s1, _, hoffs, hlen, hev,
      Redis.Set_eq_some (Redis.NewBloomService m k client enc) ToInt s key val _ hcap hoffs
        rawResp e s1 hev, rfl, by simp⟩
  | none =>
    refine ⟨_, rawResp, none, s1, _, hoffs, hlen, hev,
      Redis.Set_eq_none (Redis.NewBloomService m k client enc) ToInt s key val _ hcap hoffs
        rawResp s1 hev, rfl, ?_⟩
    by_cases h : ToInt rawResp = 1
    · simp [h]
    · simp [h]

/-- Witness for the amended C14: `k = 3` on the store-backed client. -/
theorem Redis.set_result_witness :
    ∃ offs rawResp err s1 res,
      (Redis.NewBloomService 64 3 Redis.storeClient helloEncryptor).getKEncrypted "hello"
        = .ok offs ∧ (offs.length : Int) = 3 ∧
      Redis.storeClient.Eval Redis.emptyStore Redis.LuaBloomBatchSetBits 1
        ([Redis.Value.string "key", Redis.Value.int32 3] ++ offs.map Redis.Value.int32)
          = ((rawResp, err), s1) ∧
      (Redis.NewBloomService 64 3 Redis.storeClient helloEncryptor).Set Redis.storeToInt
        Redis.emptyStore "key" "hello" = .ok (res, s1) ∧
      res = err.elim
        (if Redis.storeToInt rawResp = 1 then none
         else some (Redis.Error.errorf ("resp: " ++ toString (Redis.storeToInt rawResp))))
        (fun e => some (Redis.Error.transport e)) ∧
      (res = none ↔ err = none ∧ Redis.storeToInt rawResp = 1) :=
  Redis.set_result 64 3 Redis.storeClient helloEncryptor
    Redis.storeToInt Redis.emptyStore "key" "hello" (by decide) (by decide) (by decide)

/-- C15 fails as stated: with `k = 2147483646` the capacity `b.k+2` of
`make([]interface{}, 0, b.k+2)` wraps to a negative `int32`, so the remote `Exist`
panics before it makes any `Eval` call. -/
theorem Redis.exist_result_counterexample :
    (Redis.NewBloomService 64 2147483646 Redis.storeClient helloEncryptor).Exist
        Redis.storeToInt Redis.emptyStore "key" "hello" = .error Fault.makeSliceCap :=
  rfl

/-- C15, amended: the result of the remote `Exist` for `0 < k <= 2^31 - 3`.  `Exist`
makes exactly one `Eval` call, with the get-bits script, key count 1 and the argument
list `[key, k, o_1, ..., o_k]`, and ends in the state that call leaves; it returns
`(false, err)` with the error of `Eval` if there is one, `(true, nil)` exactly when
there is no error and the response converts to 1, and `(false, nil)` otherwise. -/
theorem Redis.exist_result {σ R E : Type} (m k : Int) (client : Redis.Client σ R E)
    (enc : Encryptor) (ToInt : Redis.Value R → Int) (s : σ) (key val : String)
    (hk32 : isInt32 k) (hk : 0 < k) (hkmax : k ≤ 2147483645) :
    ∃ offs rawResp err s1 found res,
      (Redis.NewBloomService m k client enc).getKEncrypted val = .ok offs ∧
      (offs.length : Int) = k ∧
      client.Eval s Redis.LuaBloomBatchGetBits 1
        ([Redis.Value.string key, Redis.Value.int32 k] ++ offs.map Redis.Value.int32)
          = ((rawResp, err), s1) ∧
      (Redis.NewBloomService m k client enc).Exist ToInt s key val = .ok ((found, res), s1) ∧
      res = err.map Redis.Error.transport ∧
      (found = true ↔ err = none ∧ ToInt rawResp = 1) := by
  have hoffs := Redis.rawOffsets_eq (Redis.NewBloomService m k client enc) hk32 hk val
  have hlen : ((hashChain enc k.toNat val).length : Int) = k := by
    rw [hashChain_length]
    omega
  have hcap := Redis.cap_ok hk32 hk hkmax
  rcases hev : client.Eval s Redis.LuaBloomBatchGetBits 1
      ([Redis.Value.string key, Redis.Value.int32 k] ++
        (hashChain enc k.toNat val).map Redis.Value.int32) with ⟨⟨rawResp, err⟩, s1⟩
  cases err with
  | some e =>
    exact ⟨_, rawResp, some e, s1, false, _, hoffs, hlen, hev,
      Redis.Exist_eq_some (Redis.NewBloomService m k client enc) ToInt s key val _ hcap hoffs
        rawResp e s1 hev, rfl, by simp⟩
  | none =>
    exact ⟨_, rawResp, none, s1, _, _, hoffs, hlen, hev,
      Redis.Exist_eq_none (Redis.NewBloomService m k client enc) ToInt s key val _ hcap hoffs
        rawResp s1 hev, rfl, by simp⟩

/-- Witness for the amended C15: `k = 3` on the store-backed client. -/
theorem Redis.exist_result_witness :
    ∃ offs rawResp err s1 found res,
      (Redis.NewBloomService 64 3 Redis.storeClient helloEncryptor).getKEncrypted "hello"
        = .ok offs ∧ (offs.length : Int) = 3 ∧
      Redis.storeClient.Eval Redis.emptyStore Redis.LuaBloomBatchGetBits 1
        ([Redis.Value.string "key", Redis.Value.int32 3] ++ offs.map Redis.Value.int32)
          = ((rawResp, err), s1) ∧
      (Redis.NewBloomService 64 3 Redis.storeClient helloEncryptor).Exist Redis.storeToInt
        Redis.emptyStore "key" "hello" = .ok ((found, res), s1) ∧
      res = err.map Redis.Error.transport ∧
      (found = true ↔ err = none ∧ Redis.storeToInt rawResp = 1) :=
  Redis.exist_result 64 3 Redis.storeClient helloEncryptor
    Redis.storeToInt Redis.emptyStore "key" "hello" (by decide) (by decide) (by decide)

/-- C16: no false negatives in the remote engine, over the store of set bit offsets
driven by the two scripts.  For `k > 0`: once `Set(ctx, key, val)` has returned `nil`,
and after any further `Set` calls that returned `nil` (under any keys),
`Exist(ctx, key, val)` returns `(true, nil)`. -/
theorem Redis.remote_no_false_negatives (m k : Int) (enc : Encryptor)
    (ToInt : Redis.Value Redis.StoreReply → Int) (hk32 : isInt32 k) (hk : 0 < k)
    (s s1 s2 : Redis.Store) (key val : String) (more : List (String × String))
    (hset : (Redis.NewBloomService m k Redis.storeClient enc).Set ToInt s key val
      = .ok (none, s1))
    (hmore : (Redis.NewBloomService m k Redis.storeClient enc).setAll ToInt s1 more
      = some s2) :
    (Redis.NewBloomService m k Redis.storeClient enc).Exist ToInt s2 key val
      = .ok ((true, none), s2) := by
  have hk32b : isInt32 (Redis.NewBloomService m k Redis.storeClient enc).k := hk32
  have hkb : 0 < (Redis.NewBloomService m k Redis.storeClient enc).k := hk
  have hcap := (Redis.Set_cap _ ToInt s key val _ hset).1
  have hkmax : (Redis.NewBloomService m k Redis.storeClient enc).k ≤ 2147483645 :=
    Redis.cap_bound hk32b hkb (by omega)
  obtain ⟨sx, hsetx, hbits⟩ :=
    Redis.Set_store (Redis.NewBloomService m k Redis.storeClient enc) rfl ToInt s key val
      hk32b hkb hkmax
  rw [hset] at hsetx
  by_cases hT : ToInt (Redis.Value.reply (Redis.StoreReply.integer 1)) = 1
  · rw [if_pos hT] at hsetx
    injection hsetx with hsetx
    injection hsetx with _ hs
    subst hs
    have hmono := Redis.setAll_store_mono _ rfl ToInt hk32b hkb hkmax more s1 s2 hmore
    rw [Redis.Exist_store _ rfl ToInt s2 key val hk32b hkb hkmax]
    have hall : ((hashChain (Redis.NewBloomService m k Redis.storeClient enc).encryptor
        (Redis.NewBloomService m k Redis.storeClient enc).k.toNat val).all
          (fun o => s2 key o)) = true := by
      rw [List.all_eq_true]
      intro o ho
      exact hmono key o ((hbits key o).2 (Or.inr ⟨rfl, ho⟩))
    rw [hall]
    simp [hT]
  · rw [if_neg hT] at hsetx
    injection hsetx with hsetx
    injection hsetx with h1 _
    cases h1

/-- Witness for C16: `k = 3`, `Set("key", "hello")` on the empty store, then one more
`Set` under another key. -/
theorem Redis.remote_no_false_negatives_witness :
    ∃ s1 s2,
      (Redis.NewBloomService 64 3 Redis.storeClient helloEncryptor).Set Redis.storeToInt
        Redis.emptyStore "key" "hello" = .ok (none, s1) ∧
      (Redis.NewBloomService 64 3 Redis.storeClient helloEncryptor).setAll Redis.storeToInt
        s1 [("other", "beta")] = some s2 ∧
      (Redis.NewBloomService 64 3 Redis.storeClient helloEncryptor).Exist Redis.storeToInt
        s2 "key" "hello" = .ok ((true, none), s2) := by
  have hT : Redis.storeToInt (Redis.Value.reply (Redis.StoreReply.integer 1)) = 1 := rfl
  obtain ⟨s1, h1, _⟩ := Redis.Set_store
    (Redis.NewBloomService 64 3 Redis.storeClient helloEncryptor) rfl Redis.storeToInt
    Redis.emptyStore "key" "hello" (by decide) (by decide) (by decide)
  obtain ⟨s2, h2, _⟩ := Redis.Set_store
    (Redis.NewBloomService 64 3 Redis.storeClient helloEncryptor) rfl Redis.storeToInt
    s1 "other" "beta" (by decide) (by decide) (by decide)
  rw [if_pos hT] at h1 h2
  have hmore : (Redis.NewBloomService 64 3 Redis.storeClient helloEncryptor).setAll
      Redis.storeToInt s1 [("other", "beta")] = some s2 := by
    simp only [Redis.BloomService.setAll, h2]
  exact ⟨s1, s2, h1, hmore,
    Redis.remote_no_false_negatives 64 3 helloEncryptor Redis.storeToInt (by decide)
      (by decide) Redis.emptyStore s1 s2 "key" "hello" [("other", "beta")] h1 hmore⟩

/-- C17: key isolation, over the store of set bit offsets driven by the two scripts.
For keys `A != B`: a `Set(ctx, A, v)` that returns leaves every bit stored under `B`
unchanged, so `Exist(ctx, B, w)` gives the same result before and after it; and
`Exist` changes no bit under any key. -/
theorem Redis.key_isolation (m k : Int) (enc : Encryptor)
    (ToInt : Redis.Value Redis.StoreReply → Int) (s s1 : Redis.Store) (A B v w : String)
    (res : Option (Redis.Error String)) (hAB : A ≠ B)
    (hset : (Redis.NewBloomService m k Redis.storeClient enc).Set ToInt s A v
      = .ok (res, s1)) :
    (∀ o, s1 B o = s B o) ∧
      ((Redis.NewBloomService m k Redis.storeClient enc).Exist ToInt s1 B w).map Prod.fst =
        ((Redis.NewBloomService m k Redis.storeClient enc).Exist ToInt s B w).map Prod.fst ∧
      ∀ key val,
        ((Redis.NewBloomService m k Redis.storeClient enc).Exist ToInt s key val).map Prod.snd =
          ((Redis.NewBloomService m k Redis.storeClient enc).Exist ToInt s key val).map
            (fun _ => s) := by
  have hother := Redis.Set_store_other _ rfl ToInt s s1 A B v res hAB hset
  exact ⟨hother, Redis.Exist_store_congr _ rfl ToInt s1 s B w hother,
    fun key val => Redis.Exist_store_frame _ rfl ToInt s key val⟩

/-- Witness for C17: `k = 3`, `Set` under "A" on the empty store, `Exist` under "B". -/
theorem Redis.key_isolation_witness :
    "A" ≠ "B" ∧ ∃ s1,
      (Redis.NewBloomService 64 3 Redis.storeClient helloEncryptor).Set Redis.storeToInt
        Redis.emptyStore "A" "hello" = .ok (none, s1) ∧
      (∀ o, s1 "B" o = Redis.emptyStore "B" o) ∧
      ((Redis.NewBloomService 64 3 Redis.storeClient helloEncryptor).Exist Redis.storeToInt
          s1 "B" "beta").map Prod.fst =
        ((Redis.NewBloomService 64 3 Redis.storeClient helloEncryptor).Exist Redis.storeToInt
          Redis.emptyStore "B" "beta").map Prod.fst ∧
      ∀ key val,
        ((Redis.NewBloomService 64 3 Redis.storeClient helloEncryptor).Exist Redis.storeToInt
          Redis.emptyStore key val).map Prod.snd =
        ((Redis.NewBloomService 64 3 Redis.storeClient helloEncryptor).Exist Redis.storeToInt
          Redis.emptyStore key val).map (fun _ => Redis.emptyStore) := by
  have hT : Redis.storeToInt (Redis.Value.reply (Redis.StoreReply.integer 1)) = 1 := rfl
  obtain ⟨s1, h1, _⟩ := Redis.Set_store
    (Redis.NewBloomService 64 3 Redis.storeClient helloEncryptor) rfl Redis.storeToInt
    Redis.emptyStore "A" "hello" (by decide) (by decide) (by decide)
  rw [if_pos hT] at h1
  exact ⟨by decide, s1, h1,
    Redis.key_isolation 64 3 helloEncryptor Redis.storeToInt Redis.emptyStore s1 "A" "B"
      "hello" "beta" none (by decide) h1⟩

/-- C19: the exact effect of the local `Set` on the bit array.  On every well-formed
state, `Set val` completes; afterwards logical bit `j` is 1 exactly when it was 1
before or `j` is one of the `k` offsets of `getKEncrypted val`; the bitmap length,
`m`, `k` and the encryptor are unchanged. -/
theorem Local.set_exact_effect (l : Local.BloomService) (hwf : l.WellFormed) (val : String) :
    ∃ offs l1, l.getKEncrypted val = .ok offs ∧ (offs.length : Int) = l.k ∧
      l.Set val = .ok l1 ∧ l1.bitmap.length = l.bitmap.length ∧ l1.m = l.m ∧ l1.k = l.k ∧
      l1.encryptor = l.encryptor ∧
      ∀ j : Nat, Local.bitIsSet l1.bitmap j = true ↔
        (Local.bitIsSet l.bitmap j = true ∨ (j : Int) ∈ offs) := by
  obtain ⟨offs0, hoffs0, hlen0, _⟩ :=
    Local.offsets_spec l hwf.2.1 hwf.2.2.2.1 hwf.2.2.2.2.1 val
  obtain ⟨offs, bm, hoffs, _, hset, hlen, hbits⟩ := Local.Set_spec l hwf val
  rw [hoffs0] at hoffs
  injection hoffs with hoffs
  subst hoffs
  refine ⟨offs0, _, hoffs0, hlen0, hset, hlen, rfl, rfl, rfl, ?_⟩
  intro j
  have hj : 32 * (j / 32) + j % 32 = j := by omega
  have h := hbits (j / 32) (j % 32)
  rw [hj] at h
  rw [Local.bitIsSet_eq, Local.bitIsSet_eq]
  show Int.testBit (bm.getD (j / 32) 0) (j % 32) = true ↔ _
  rw [h]
  constructor
  · rintro (h1 | h1)
    · exact Or.inl h1
    · exact Or.inr h1.2
  · rintro (h1 | h1)
    · exact Or.inl h1
    · exact Or.inr ⟨Nat.mod_lt _ (by decide), h1⟩

/-- Witness for C19 on a state with `m = 64`, `k = 3` and some bits already set. -/
theorem Local.set_exact_effect_witness :
    ∃ offs l1,
      Local.BloomService.getKEncrypted ⟨64, 3, 7, [5, 0, 1], helloEncryptor⟩ "alpha" = .ok offs ∧
      (offs.length : Int) = 3 ∧
      Local.BloomService.Set ⟨64, 3, 7, [5, 0, 1], helloEncryptor⟩ "alpha" = .ok l1 ∧
      l1.bitmap.length = ([5, 0, 1] : List Int).length ∧ l1.m = 64 ∧ l1.k = 3 ∧
      l1.encryptor = helloEncryptor ∧
      ∀ j : Nat, Local.bitIsSet l1.bitmap j = true ↔
        (Local.bitIsSet [5, 0, 1] j = true ∨ (j : Int) ∈ offs) :=
  Local.set_exact_effect ⟨64, 3, 7, [5, 0, 1], helloEncryptor⟩ (by decide) "alpha"

/-- C20: a new local filter is empty.  On the filter returned by `NewBloomService m k`
with `m > 0` and `k > 0`, all bitmap words are zero and, before any `Set` call,
`Exist val` returns false for every `val`. -/
theorem Local.new_filter_is_empty (m k : Int) (enc : Encryptor) (hm32 : isInt32 m)
    (hk32 : isInt32 k) (hm : 0 < m) (hk : 0 < k) (val : String) :
    ∃ l0, Local.NewBloomService m k enc = .ok l0 ∧ (∀ w ∈ l0.bitmap, w = 0) ∧
      l0.Exist val = .ok (false, l0) := by
  obtain ⟨l0, hnew, hwf0, _, hk0, _, _⟩ :=
    Local.NewBloomService_wellFormed m k enc hm32 hk32 hm hk
  have hnew2 := hnew
  rw [Local.NewBloomService_eq m k enc hm32, if_neg (by omega)] at hnew2
  injection hnew2 with hl0
  have hbm : l0.bitmap = List.replicate (Int.tdiv m 32 + 1).toNat 0 := by
    rw [← hl0]
  obtain ⟨offs0, hoffs0, hlen0, _⟩ :=
    Local.offsets_spec l0 hwf0.2.1 hwf0.2.2.2.1 hwf0.2.2.2.2.1 val
  obtain ⟨offs, hoffs, _, hex⟩ := Local.Exist_spec l0 hwf0 val
  rw [hoffs0] at hoffs
  injection hoffs with hoffs
  subst hoffs
  refine ⟨l0, hnew, ?_, ?_⟩
  · intro w hw
    rw [hbm] at hw
    exact (List.mem_replicate.1 hw).2
  · rw [hex]
    cases offs0 with
    | nil =>
      exfalso
      simp only [List.length_nil] at hlen0
      omega
    | cons o rest =>
      have hbit : Local.bitIsSet l0.bitmap o.toNat = false := by
        rw [Local.bitIsSet_eq, hbm, getD_replicate_zero]
        show Nat.testBit 0 (o.toNat % 32) = false
        simp
      rw [List.all_cons, hbit, Bool.false_and]

/-- Witness for C20 at `m = 64`, `k = 3`. -/
theorem Local.new_filter_is_empty_witness :
    ∃ l0, Local.NewBloomService 64 3 helloEncryptor = .ok l0 ∧ (∀ w ∈ l0.bitmap, w = 0) ∧
      l0.Exist "alpha" = .ok (false, l0) :=
  Local.new_filter_is_empty 64 3 helloEncryptor (by decide) (by decide) (by decide) (by decide)
    "alpha"

end BloomFilter
